import Mathlib

/-!
# GoSortMusicLibrary — the script interpreter of `internal/sorter/sorter.go`

A shallow embedding of the preprocessing (`cleanScript`), the path evaluator
(`getPath`), the condition evaluator (`evaluateCondition`), the tag resolver
(`getTag`, `extractCustomTag`, `_extractCustomTag`) and the constructor
`NewSorter`.

Modelling conventions

* A Go `string` is a `Str = List Char`: valid UTF-8 text, one element per code
  point.  Every separator, prefix and cut set used by the source is ASCII, so
  splitting and trimming by bytes and by code points coincide; every length
  test of the source is taken together with a test of an ASCII first and last
  byte, for which the byte count and the code point count decide alike.
* A run-time panic (index or slice out of range) is the value `none`; every
  function that indexes or slices returns an `Option`.
* `tag.Metadata` is a record of what its accessors return.  `Raw()` is an
  association list: a lookup `Raw()[k]` finds the entry under key `k`, and a
  `range` loop visits the entries in list order (one enumeration order of the
  map).
* The platform constants (`filepath.Separator`, the case tables of package
  `unicode` outside ASCII) are the fields of `Env`.
* `println` to standard error in `getTag` is not modelled.
-/

namespace Sorter

/-- Go strings: lists of code points. -/
abbrev Str := List Char

/-- Go `int` on a 64-bit platform. -/
abbrev GoInt := { n : Int // -(2 ^ 63 : Int) ≤ n ∧ n < 2 ^ 63 }

/-- Platform constants the source reads from the standard library. -/
structure Env where
  /-- The constant `filepath.Separator`. -/
  Separator : Char
  /-- The map `unicode.ToUpper` on code points from 128 upwards. -/
  unicodeUpper : Char → Char
  /-- The map `unicode.ToLower` on code points from 128 upwards. -/
  unicodeLower : Char → Char

/-! ## Package `strings` -/

namespace strings

/-- Go `strings.HasPrefix(s, p)`. -/
def HasPrefix (s p : Str) : Bool := p.isPrefixOf s

/-- Go `strings.TrimPrefix(s, p)`. -/
def TrimPrefix (s p : Str) : Str := if HasPrefix s p then s.drop p.length else s

/-- Go `strings.Index(s, substr)`: position of the first occurrence, `none` for `-1`. -/
def Index (s substr : Str) : Option Nat :=
  if substr.isPrefixOf s then some 0
  else match s with
    | [] => none
    | _ :: cs => (Index cs substr).map Nat.succ

/-- Go `strings.Contains(s, substr)`. -/
def Contains (s substr : Str) : Bool := (Index s substr).isSome

/-- Go `strings.SplitN(s, sep, n)` for a non-empty `sep` and `n ≥ 0`. -/
def SplitN (s sep : Str) : Nat → List Str
  | 0 => []
  | 1 => [s]
  | n + 2 =>
    match Index s sep with
    | none => [s]
    | some i => s.take i :: SplitN (s.drop (i + sep.length)) sep (n + 1)

/-- Go `strings.Split(s, sep)` for a separator of one byte. -/
def Split (s : Str) (sep : Char) : List Str :=
  match s with
  | [] => [[]]
  | c :: cs =>
    if c = sep then [] :: Split cs sep
    else match Split cs sep with
      | [] => [[c]]
      | h :: t => (c :: h) :: t

/-- Go `strings.TrimLeft(s, cutset)`. -/
def TrimLeft (s cutset : Str) : Str := s.dropWhile (fun c => cutset.contains c)

/-- Go `strings.TrimRight(s, cutset)`. -/
def TrimRight (s cutset : Str) : Str :=
  (s.reverse.dropWhile (fun c => cutset.contains c)).reverse

/-- Go `unicode.IsSpace`. -/
def IsSpace (c : Char) : Bool :=
  let n := c.toNat
  (9 ≤ n && n ≤ 13) || n = 32 || n = 0x85 || n = 0xA0 || n = 0x1680 ||
  (0x2000 ≤ n && n ≤ 0x200A) || n = 0x2028 || n = 0x2029 || n = 0x202F ||
  n = 0x205F || n = 0x3000

/-- Go `strings.TrimSpace(s)`. -/
def TrimSpace (s : Str) : Str :=
  ((s.dropWhile IsSpace).reverse.dropWhile IsSpace).reverse

/-- Scan of `strings.ReplaceAll`: `skip` counts the characters of a matched
occurrence of `old` that are still to be passed over. -/
def replaceScan (old new : Str) : Nat → Str → Str
  | _, [] => []
  | skip + 1, _ :: cs => replaceScan old new skip cs
  | 0, c :: cs =>
    if old.isPrefixOf (c :: cs) then new ++ replaceScan old new (old.length - 1) cs
    else c :: replaceScan old new 0 cs

/-- Go `strings.ReplaceAll(s, old, new)` for a non-empty `old`: the
non-overlapping occurrences of `old`, found from left to right, become `new`. -/
def ReplaceAll (s old new : Str) : Str := replaceScan old new 0 s

/-- Go `unicode.ToUpper` on one code point. -/
def upperRune (E : Env) (c : Char) : Char :=
  if c.toNat < 128 then (if 97 ≤ c.toNat ∧ c.toNat ≤ 122 then Char.ofNat (c.toNat - 32) else c)
  else E.unicodeUpper c

/-- Go `unicode.ToLower` on one code point. -/
def lowerRune (E : Env) (c : Char) : Char :=
  if c.toNat < 128 then (if 65 ≤ c.toNat ∧ c.toNat ≤ 90 then Char.ofNat (c.toNat + 32) else c)
  else E.unicodeLower c

/-- Go `strings.ToUpper(s)`. -/
def ToUpper (E : Env) (s : Str) : Str := s.map (upperRune E)

/-- Go `strings.ToLower(s)`. -/
def ToLower (E : Env) (s : Str) : Str := s.map (lowerRune E)

end strings

/-! ## Package `strconv` -/

namespace strconv

/-- The decimal digit character of `d < 10`. -/
def digitChar (d : Nat) : Char := Char.ofNat (48 + d)

/-- The decimal digits of `n`, most significant first, in front of `acc`. -/
def formatBits : Nat → Nat → Str → Str
  | 0, _, acc => acc
  | fuel + 1, n, acc =>
    if n < 10 then digitChar n :: acc
    else formatBits fuel (n / 10) (digitChar (n % 10) :: acc)

/-- Go `strconv.Itoa(i)`. -/
def Itoa (i : Int) : Str :=
  if i < 0 then '-' :: formatBits (i.natAbs + 1) i.natAbs []
  else formatBits (i.natAbs + 1) i.natAbs []

/-- Is the character a decimal digit. -/
def isDigit (c : Char) : Bool := 48 ≤ c.toNat && c.toNat ≤ 57

/-- The value of a string of decimal digits. -/
def digitsValue (ds : Str) : Nat := ds.foldl (fun n c => n * 10 + (c.toNat - 48)) 0

/-- Go `strconv.Atoi(s)` on a 64-bit platform; `none` is a non-nil error
(syntax or range). -/
def Atoi (s : Str) : Option Int :=
  match s with
  | [] => none
  | c :: rest =>
    let neg := decide (c = '-')
    let ds := if c = '-' ∨ c = '+' then rest else s
    if ds = [] then none
    else if ds.all isDigit then
      let un := digitsValue ds
      if neg then (if un ≤ 2 ^ 63 then some (-(un : Int)) else none)
      else (if un < 2 ^ 63 then some (un : Int) else none)
    else none

end strconv

open strings strconv

/-! ## Metadata (`github.com/dhowden/tag`) -/

/-- A value stored in the free-form collection `Raw()`: a string, a
`*tag.Comm` (language, description, text), or a value of any other type. -/
inductive RawValue where
  | str (s : Str)
  | comm (Language Description Text : Str)
  | other
  deriving DecidableEq

/-- What the accessors of one `tag.Metadata` value return. -/
structure Metadata where
  Artist : Str
  Album : Str
  Title : Str
  AlbumArtist : Str
  Composer : Str
  Year : GoInt
  Genre : Str
  /-- The pair returned by `Track()`: number and total. -/
  Track : GoInt × GoInt
  /-- The pair returned by `Disc()`: number and total. -/
  Disc : GoInt × GoInt
  /-- The rendering `Picture().String()` when `Picture()` is not nil. -/
  Picture : Option Str
  Lyrics : Str
  Comment : Str
  /-- The entries of the map `Raw()`, in the order a `range` loop visits them. -/
  Raw : List (Str × RawValue)

/-! ## Tag resolution -/

/-- The loop `for _, v := range m.Raw()` of `_extractCustomTag`. -/
def scanComm (tagName : Str) : List (Str × RawValue) → Str
  | [] => []
  | (_, RawValue.comm _ description text) :: rest =>
    if description = tagName then text else scanComm tagName rest
  | _ :: rest => scanComm tagName rest

/-- Source: `_extractCustomTag` (sorter.go 428-446). -/
def _extractCustomTag (m : Metadata) (tagName : Str) : Str :=
  match m.Raw.lookup tagName with
  | some (RawValue.str str) => str
  | _ => scanComm tagName m.Raw

/-- Source: `extractCustomTag` (sorter.go 412-426). -/
def extractCustomTag (E : Env) (m : Metadata) (tagName : Str) : Str :=
  if _extractCustomTag m tagName ≠ [] then _extractCustomTag m tagName
  else if _extractCustomTag m (ToUpper E tagName) ≠ [] then _extractCustomTag m (ToUpper E tagName)
  else if _extractCustomTag m (ToLower E tagName) ≠ [] then _extractCustomTag m (ToLower E tagName)
  else []

/-- The `switch tagName` of `getTag` (sorter.go 376-409). -/
def standardTag (m : Metadata) (tagName : Str) : Str :=
  if tagName = "ARTIST".toList then m.Artist
  else if tagName = "ALBUM".toList then m.Album
  else if tagName = "TITLE".toList then m.Title
  else if tagName = "ALBUMARTIST".toList then m.AlbumArtist
  else if tagName = "COMPOSER".toList then m.Composer
  else if tagName = "YEAR".toList then Itoa m.Year.val
  else if tagName = "GENRE".toList then m.Genre
  else if tagName = "TRACK".toList then Itoa m.Track.1.val
  else if tagName = "DISC".toList then Itoa m.Disc.1.val
  else if tagName = "PICTURE".toList then
    (match m.Picture with
     | some rendering => rendering
     | none => [])
  else if tagName = "LYRICS".toList then m.Lyrics
  else if tagName = "COMMENT".toList then m.Comment
  else []

/-- Source: `getTag` (sorter.go 361-410). -/
def getTag (E : Env) (tagName : Str) (m : Metadata) : Str :=
  if HasPrefix tagName "CUSTOM:".toList then
    extractCustomTag E m (TrimSpace (TrimPrefix tagName "CUSTOM:".toList))
  else if HasPrefix tagName "TXXX:".toList then
    extractCustomTag E m (TrimSpace (TrimPrefix tagName "TXXX:".toList))
  else
    standardTag m (TrimSpace (ToUpper E tagName))

/-- The string stored under the flat key `k` of the free-form collection, empty
when the key is absent or holds no string. -/
def flatValue (m : Metadata) (k : Str) : Str :=
  match m.Raw.lookup k with
  | some (RawValue.str s) => s
  | _ => []

/-! ## Indexing and slicing, which panic out of range -/

/-- The Go slice expression `s[lo:hi]`. -/
def slice (s : Str) (lo hi : Nat) : Option Str :=
  if lo ≤ hi ∧ hi ≤ s.length then some ((s.take hi).drop lo) else none

/-- The Go test `lenOk && s[0] == first && s[len(s)-1] == last`, evaluated
left to right with short circuit. -/
def firstLastAre (lenOk : Bool) (s : Str) (first last : Char) : Option Bool :=
  if lenOk then do
    let c0 ← s[0]?
    if c0 = first then do
      let cl ← s[s.length - 1]?
      pure (decide (cl = last))
    else pure false
  else pure false

/-- The lines "Remove quotes if present" of `evaluateCondition`
(sorter.go 282-284 and 295-297). -/
def removeQuotes (expectedValue : Str) : Option Str := do
  if (← firstLastAre (decide (expectedValue.length ≥ 2)) expectedValue (Char.ofNat 34) (Char.ofNat 34)) then
    slice expectedValue 1 (expectedValue.length - 1)
  else pure expectedValue

/-! ## Conditions -/

/-- Source: `evaluateCondition` (sorter.go 263-305). -/
def evaluateCondition (E : Env) (condition : Str) (m : Metadata) : Option Bool :=
  if Contains condition " is number".toList then do
    let parts := SplitN condition " is number".toList 2
    let tagName := TrimSpace (← parts[0]?)
    let tagValue := getTag E tagName m
    if tagValue = [] then pure false
    else pure (Atoi tagValue).isSome
  else if Contains condition "!=".toList then do
    let parts := SplitN condition "!=".toList 2
    let tagName := TrimSpace (← parts[0]?)
    let expectedValue := TrimSpace (← parts[1]?)
    let expectedValue ← removeQuotes expectedValue
    let actualValue := getTag E tagName m
    pure (decide (actualValue ≠ expectedValue))
  else if Contains condition "==".toList then do
    let parts := SplitN condition "==".toList 2
    let tagName := TrimSpace (← parts[0]?)
    let expectedValue := TrimSpace (← parts[1]?)
    let expectedValue ← removeQuotes expectedValue
    let actualValue := getTag E tagName m
    pure (decide (actualValue = expectedValue))
  else
    pure (decide (getTag E (TrimSpace condition) m ≠ []))

/-! ## Preprocessing -/

/-- The body of the loop over the lines in `cleanScript` (sorter.go 186-198),
with the accumulator `result`. -/
def cleanScriptLoop : List Str → Str → Option Str
  | [], result => some result
  | line :: rest, result => do
    let line ← if Contains line "#".toList then (Split line '#')[0]? else pure line
    let line := TrimRight line " ".toList
    let line := TrimRight line "\t".toList
    if TrimSpace line = [] then cleanScriptLoop rest result
    else cleanScriptLoop rest (result ++ line ++ "\n".toList)

/-- Source: `cleanScript` (sorter.go 178-203). -/
def cleanScript (script : Str) : Option Str := do
  let result ← cleanScriptLoop (Split script '\n') []
  let result := TrimRight result "\n".toList
  let result := ReplaceAll result "    ".toList "\t".toList
  let result := ReplaceAll result [Char.ofNat 39] [Char.ofNat 34]
  pure result

/-! ## The structure of the result of `cleanScript` -/

/-- The newline-joined text of a list of lines. -/
def joinLines : List Str → Str
  | [] => []
  | [line] => line
  | line :: rest => line ++ '\n' :: joinLines rest

/-- The text of a list of lines, each followed by a newline: the accumulator
`result` of `cleanScript` after its loop. -/
def joinEach : List Str → Str
  | [] => []
  | line :: rest => line ++ '\n' :: joinEach rest

/-- One physical line after the comment cut and the two right trims of
`cleanScript` (sorter.go 187-191). -/
def stripLine (line : Str) : Str :=
  TrimRight (TrimRight ((Split line '#').headD []) " ".toList) "\t".toList

/-- The lines `cleanScript` keeps: stripped, and not white space only. -/
def keptLines (script : Str) : List Str :=
  ((Split script '\n').map stripLine).filter (fun line => decide (TrimSpace line ≠ []))

/-- The two substitutions of `cleanScript` (sorter.go 200-201) on one line. -/
def normalizeLine (line : Str) : Str :=
  ReplaceAll (ReplaceAll line "    ".toList "\t".toList) [Char.ofNat 39] [Char.ofNat 34]

/-! ## Path evaluation -/

/-- Source: `getLevel` (sorter.go 307-315): the number of leading tabs. -/
def getLevel : Str → Nat
  | c :: rest => if c = '\t' then getLevel rest + 1 else 0
  | [] => 0

/-- How one pass through the loop body of `getPath` ends. -/
inductive Flow where
  /-- The loop goes on with this `level` and `currentResult`. -/
  | next (level : Nat) (currentResult : Str)
  /-- A `return` statement with this value. -/
  | ret (value : Str)
  deriving DecidableEq

/-- The condition of an `IF` line (sorter.go 225-238), for the line with its
tabs trimmed: does the line grant the next level. -/
def ifGrants (E : Env) (m : Metadata) (line : Str) : Option Bool := do
  let condition := TrimSpace (TrimPrefix line "IF".toList)
  if (← firstLastAre (decide (condition.length > 2)) condition '(' ')') then
    let condition ← slice condition 1 (condition.length - 1)
    evaluateCondition E condition m
  else
    pure (decide (getTag E condition m ≠ []))

/-- The body of the loop of `getPath` (sorter.go 209-258) on one `line`. -/
def getPathStep (E : Env) (m : Metadata) (level : Nat) (currentResult : Str) (line : Str) :
    Option Flow :=
  let lineLevel := getLevel line
  if lineLevel ≤ level then
    let level := lineLevel
    let line := TrimLeft line "\t".toList
    if HasPrefix line "IF".toList then do
      if (← ifGrants E m line) then pure (Flow.next (level + 1) currentResult)
      else pure (Flow.next level currentResult)
    else if HasPrefix line "ADD FOLDER".toList then
      pure (Flow.next (level + 1) (currentResult ++ [E.Separator]))
    else if HasPrefix line [Char.ofNat 34] then do
      let toAdd ← (Split line (Char.ofNat 34))[1]?
      let toAdd ← (Split toAdd (Char.ofNat 34))[0]?
      pure (Flow.next level (currentResult ++ toAdd))
    else if HasPrefix line "STOP".toList then
      pure (Flow.ret [])
    else
      pure (Flow.next level (currentResult ++ getTag E line m))
  else
    pure (Flow.next level currentResult)

/-- The loop of `getPath` from a given `level` and `currentResult`. -/
def getPathLoop (E : Env) (m : Metadata) : Nat → Str → List Str → Option Str
  | _, currentResult, [] => some currentResult
  | level, currentResult, line :: rest =>
    match getPathStep E m level currentResult line with
    | none => none
    | some (Flow.ret value) => some value
    | some (Flow.next level1 result1) => getPathLoop E m level1 result1 rest

/-- Source: `getPath` (sorter.go 205-261). -/
def getPath (E : Env) (instructions : List Str) (m : Metadata) : Option Str :=
  getPathLoop E m 0 [] instructions

/-! ## The run of `getPath`, instruction by instruction -/

/-- The state `(level, currentResult)` with which the loop of `getPath` reaches
instruction `k`: the loop body iterated over the first `k` instructions;
`none` when the run ended earlier (a `return`, a panic, or fewer than `k`
instructions). -/
def stateBefore (E : Env) (instructions : List Str) (m : Metadata) : Nat → Option (Nat × Str)
  | 0 => some (0, [])
  | k + 1 =>
    match stateBefore E instructions m k, instructions[k]? with
    | some (level, currentResult), some line =>
      (match getPathStep E m level currentResult line with
       | some (Flow.next level1 result1) => some (level1, result1)
       | _ => none)
    | _, _ => none

/-- Instruction `k` is executed by the run of `getPath`: the loop reaches it
and its level does not exceed the cursor, so it is not skipped. -/
def executes (E : Env) (instructions : List Str) (m : Metadata) (k : Nat) : Bool :=
  match stateBefore E instructions m k, instructions[k]? with
  | some (level, _), some line => decide (getLevel line ≤ level)
  | _, _ => false

/-- The line is an `ADD FOLDER` line or an `IF` line whose condition evaluated
to true. -/
def isGrant (E : Env) (m : Metadata) (line : Str) : Prop :=
  HasPrefix (TrimLeft line "\t".toList) "ADD FOLDER".toList = true ∨
  (HasPrefix (TrimLeft line "\t".toList) "IF".toList = true ∧
    ifGrants E m (TrimLeft line "\t".toList) = some true)

/-- Instruction `k` is skipped by the run of `getPath`: the loop reaches it and
its level exceeds the cursor. -/
def skips (E : Env) (instructions : List Str) (m : Metadata) (k : Nat) : Bool :=
  match stateBefore E instructions m k, instructions[k]? with
  | some (level, _), some line => decide (level < getLevel line)
  | _, _ => false

/-! ## Integer text -/

/-- Base-10 integer text as `strconv.Atoi` accepts it: an optional sign `+` or
`-`, then one or more decimal digits, the value within the 64-bit `int`. -/
def IsIntegerText (v : Str) : Prop :=
  ∃ sign digits : Str, v = sign ++ digits ∧ (sign = [] ∨ sign = ['+'] ∨ sign = ['-']) ∧
    digits ≠ [] ∧ (∀ c ∈ digits, '0'.toNat ≤ c.toNat ∧ c.toNat ≤ '9'.toNat) ∧
    (sign = ['-'] → digitsValue digits ≤ 2 ^ 63) ∧
    (sign ≠ ['-'] → digitsValue digits < 2 ^ 63)

/-- Integer text in the words of the claim on `is number`: an optional leading
`-` followed by one or more decimal digits. -/
def minusDigitsText (v : Str) : Bool :=
  match v with
  | [] => false
  | c :: rest =>
    if c = '-' then (!rest.isEmpty && rest.all isDigit) else (c :: rest).all isDigit

/-! ## The sorter record -/

/-- Source: `type Sorter struct` (sorter.go 14-20). -/
structure Sorter where
  FolderPath : Str
  ScriptPath : Str
  NewLibraryPath : Str
  FileOperationMode : Str
  Logs : List Str

/-- Source: `NewSorter` (sorter.go 22-34). -/
def NewSorter (folderPath scriptPath newLibraryPath fileOperationMode : Str) : Sorter :=
  let fileOperationMode :=
    if fileOperationMode = [] ∨ (fileOperationMode ≠ "move".toList ∧
        fileOperationMode ≠ "copy".toList ∧ fileOperationMode ≠ "preview".toList)
    then "preview".toList else fileOperationMode
  { FolderPath := folderPath, ScriptPath := scriptPath, NewLibraryPath := newLibraryPath,
    FileOperationMode := fileOperationMode, Logs := [] }

/-! ## Sample inputs -/

/-- An environment with `/` as path separator; its case tables outside ASCII
are the identity. -/
def slashEnv : Env := ⟨'/', id, id⟩

/-- A metadata value with the given artist, album and year, every other field empty. -/
def sampleMeta (artist album : String) (year : GoInt) : Metadata :=
  { Artist := artist.toList, Album := album.toList, Title := [], AlbumArtist := [],
    Composer := [], Year := year, Genre := [],
    Track := (⟨0, by decide⟩, ⟨0, by decide⟩), Disc := (⟨0, by decide⟩, ⟨0, by decide⟩),
    Picture := none, Lyrics := [], Comment := [], Raw := [] }

/-- A metadata value whose only content is the free-form collection `raw`. -/
def rawMeta (raw : List (Str × RawValue)) : Metadata :=
  { Artist := [], Album := [], Title := [], AlbumArtist := [],
    Composer := [], Year := ⟨0, by decide⟩, Genre := [],
    Track := (⟨0, by decide⟩, ⟨0, by decide⟩), Disc := (⟨0, by decide⟩, ⟨0, by decide⟩),
    Picture := none, Lyrics := [], Comment := [], Raw := raw }

/-- The script of Scenario A, indented with four spaces. -/
def scenarioScript : Str :=
  "ADD FOLDER\nARTIST\nADD FOLDER\nIF(YEAR is number)\n    \"[\"\n    YEAR\n    \"] \"\nALBUM".toList

/-- The lines of the cleaned Scenario A script: the bracket block at level 1. -/
def scenarioLines : List Str :=
  ["ADD FOLDER".toList, "ARTIST".toList, "ADD FOLDER".toList, "IF(YEAR is number)".toList,
    "\t\"[\"".toList, "\tYEAR".toList, "\t\"] \"".toList, "ALBUM".toList]

/-- Two entries of the free-form collection with one description and different
texts, under different keys. -/
def twoDescribed : List (Str × RawValue) :=
  [("TXXX".toList, RawValue.comm "eng".toList "MOOD".toList "calm".toList),
   ("TXXX_0".toList, RawValue.comm "eng".toList "MOOD".toList "wild".toList)]

/-! # Theorems -/

/-! ## The loop of `getPath` -/

theorem getPathStep_skip (E : Env) (m : Metadata) (level : Nat) (cur line : Str)
    (h : level < getLevel line) :
    getPathStep E m level cur line = some (Flow.next level cur) := by
  simp [getPathStep, Nat.not_le.2 h]

theorem getPathStep_next (E : Env) (m : Metadata) (level : Nat) (cur line : Str)
    (level1 : Nat) (result1 : Str) (hle : getLevel line ≤ level)
    (h : getPathStep E m level cur line = some (Flow.next level1 result1)) :
    level1 = getLevel line ∨ (level1 = getLevel line + 1 ∧ isGrant E m line) := by
  unfold getPathStep at h
  unfold isGrant
  rw [if_pos hle] at h
  generalize TrimLeft line "\t".toList = t at h ⊢
  generalize getLevel line = n at h ⊢
  dsimp only at h
  split at h
  · rename_i hif
    cases hg : ifGrants E m t with
    | none => simp [hg] at h
    | some b =>
      cases b
      · simp [hg] at h; exact Or.inl h.1.symm
      · simp [hg] at h; exact Or.inr ⟨h.1.symm, Or.inr ⟨hif, rfl⟩⟩
  · split at h
    · rename_i hadd
      simp at h
      exact Or.inr ⟨h.1.symm, Or.inl hadd⟩
    · split at h
      · cases h1 : (Split t (Char.ofNat 34))[1]? with
        | none => simp [h1] at h
        | some a =>
          cases h2 : (Split a (Char.ofNat 34))[0]? with
          | none => simp [h1, h2] at h
          | some b => simp [h1, h2] at h; exact Or.inl h.1.symm
      · split at h
        · simp at h
        · simp at h; exact Or.inl h.1.symm

theorem stateBefore_succ (E : Env) (instructions : List Str) (m : Metadata) (k : Nat)
    (level1 : Nat) (result1 : Str)
    (h : stateBefore E instructions m (k + 1) = some (level1, result1)) :
    ∃ level cur line, stateBefore E instructions m k = some (level, cur) ∧
      instructions[k]? = some line ∧
      getPathStep E m level cur line = some (Flow.next level1 result1) := by
  rw [stateBefore] at h
  cases hs : stateBefore E instructions m k with
  | none => simp [hs] at h
  | some st =>
    obtain ⟨level, cur⟩ := st
    cases hl : instructions[k]? with
    | none => simp [hs, hl] at h
    | some line =>
      refine ⟨level, cur, line, rfl, rfl, ?_⟩
      simp only [hs, hl] at h
      cases hstep : getPathStep E m level cur line with
      | none => simp [hstep] at h
      | some fl =>
        cases fl with
        | ret v => simp [hstep] at h
        | next a b =>
          simp only [hstep, Option.some.injEq, Prod.mk.injEq] at h
          rw [h.1, h.2]

theorem executes_iff (E : Env) (instructions : List Str) (m : Metadata) (k : Nat) :
    executes E instructions m k = true ↔
      ∃ level cur line, stateBefore E instructions m k = some (level, cur) ∧
        instructions[k]? = some line ∧ getLevel line ≤ level := by
  unfold executes
  constructor
  · intro h
    cases hs : stateBefore E instructions m k with
    | none => simp [hs] at h
    | some st =>
      obtain ⟨level, cur⟩ := st
      cases hl : instructions[k]? with
      | none => simp [hs, hl] at h
      | some line =>
        simp only [hs, hl, decide_eq_true_eq] at h
        exact ⟨level, cur, line, rfl, rfl, h⟩
  · rintro ⟨level, cur, line, hs, hl, hle⟩
    simp [hs, hl, hle]

theorem granted_invariant (E : Env) (instructions : List Str) (m : Metadata) :
    ∀ (p level : Nat) (cur : Str), stateBefore E instructions m p = some (level, cur) →
      ∀ n, 1 ≤ n → n ≤ level →
        ∃ i gline, i < p ∧ instructions[i]? = some gline ∧ getLevel gline + 1 = n ∧
          (∀ k ln, i < k → k < p → instructions[k]? = some ln → n ≤ getLevel ln) ∧
          executes E instructions m i = true ∧ isGrant E m gline := by
  intro p
  induction p with
  | zero =>
    intro level cur h n h1 hn
    simp [stateBefore] at h
    omega
  | succ p ih =>
    intro level1 result1 h n h1 hn
    obtain ⟨level, cur, line, hs, hl, hstep⟩ := stateBefore_succ E instructions m p level1 result1 h
    have extend : n ≤ getLevel line → n ≤ level →
        ∃ i gline, i < p + 1 ∧ instructions[i]? = some gline ∧ getLevel gline + 1 = n ∧
          (∀ k ln, i < k → k < p + 1 → instructions[k]? = some ln → n ≤ getLevel ln) ∧
          executes E instructions m i = true ∧ isGrant E m gline := by
      intro hnl hnc
      obtain ⟨i, gline, hi, hg, hlev, hbetween, hex, hgr⟩ := ih level cur hs n h1 hnc
      refine ⟨i, gline, Nat.lt_succ_of_lt hi, hg, hlev, ?_, hex, hgr⟩
      intro k ln hik hkp hk
      rcases Nat.lt_succ_iff_lt_or_eq.1 hkp with hlt | heq
      · exact hbetween k ln hik hlt hk
      · subst heq
        rw [hl] at hk
        cases hk
        exact hnl
    by_cases hle : getLevel line ≤ level
    · rcases getPathStep_next E m level cur line level1 result1 hle hstep with heq | ⟨heq, hgrant⟩
      · exact extend (by omega) (by omega)
      · by_cases hn2 : n ≤ getLevel line
        · exact extend hn2 (by omega)
        · refine ⟨p, line, Nat.lt_succ_self p, hl, by omega, ?_, ?_, hgrant⟩
          · intro k ln hpk hkp _
            omega
          · exact (executes_iff E instructions m p).2 ⟨level, cur, line, hs, hl, hle⟩
    · have hskip := getPathStep_skip E m level cur line (Nat.not_le.1 hle)
      rw [hskip] at hstep
      simp only [Option.some.injEq, Flow.next.injEq] at hstep
      exact extend (by omega) (by omega)

theorem getPath_eq_loop_drop (E : Env) (instructions : List Str) (m : Metadata) :
    ∀ (k level : Nat) (cur : Str), stateBefore E instructions m k = some (level, cur) →
      getPath E instructions m = getPathLoop E m level cur (instructions.drop k) := by
  intro k
  induction k with
  | zero =>
    intro level cur h
    simp [stateBefore] at h
    simp [getPath, h.1.symm, h.2.symm]
  | succ k ih =>
    intro level1 result1 h
    obtain ⟨level, cur, line, hs, hl, hstep⟩ := stateBefore_succ E instructions m k level1 result1 h
    rw [ih level cur hs]
    have hdrop : instructions.drop k = line :: instructions.drop (k + 1) := by
      rw [List.getElem?_eq_some_iff] at hl
      obtain ⟨hlt, hget⟩ := hl
      rw [← hget]
      exact List.drop_eq_getElem_cons hlt
    rw [hdrop, getPathLoop, hstep]

theorem getPathStep_STOP (E : Env) (m : Metadata) (level : Nat) (cur line : Str)
    (hle : getLevel line ≤ level) (hstop : TrimLeft line "\t".toList = "STOP".toList) :
    getPathStep E m level cur line = some (Flow.ret []) := by
  unfold getPathStep
  rw [if_pos hle]
  dsimp only
  rw [hstop]
  rfl

/-- C1: gating soundness of `getPath`.  An executed instruction of level
`n ≥ 1` has a nearest preceding instruction of smaller level; that instruction
has level `n - 1`, was executed, and is an `ADD FOLDER` line or an `IF` line
whose condition was true.  A line deeper than the cursor leaves the state
unchanged, and the cursor rises only by 1 and only through such a line. -/
theorem getPath_gating_sound (E : Env) (instructions : List Str) (m : Metadata) (j : Nat)
    (line : Str) (hline : instructions[j]? = some line)
    (hex : executes E instructions m j = true) (hn : 1 ≤ getLevel line) :
    (∃ i gline, i < j ∧ instructions[i]? = some gline ∧ getLevel gline < getLevel line ∧
        (∀ k ln, i < k → k < j → instructions[k]? = some ln → getLevel line ≤ getLevel ln) ∧
        getLevel gline + 1 = getLevel line ∧
        executes E instructions m i = true ∧ isGrant E m gline) ∧
    (∀ level cur ln, level < getLevel ln →
        getPathStep E m level cur ln = some (Flow.next level cur)) ∧
    (∀ level cur ln level1 result1,
        getPathStep E m level cur ln = some (Flow.next level1 result1) → level < level1 →
        level1 = level + 1 ∧ getLevel ln = level ∧ isGrant E m ln) := by
  refine ⟨?_, ?_, ?_⟩
  · obtain ⟨level, cur, line1, hs, hl, hle⟩ := (executes_iff E instructions m j).1 hex
    rw [hline] at hl
    cases hl
    obtain ⟨i, gline, hi, hg, hlev, hbetween, hexi, hgr⟩ :=
      granted_invariant E instructions m j level cur hs (getLevel line) hn hle
    exact ⟨i, gline, hi, hg, by omega, hbetween, hlev, hexi, hgr⟩
  · intro level cur ln h
    exact getPathStep_skip E m level cur ln h
  · intro level cur ln level1 result1 hstep hlt
    by_cases hle : getLevel ln ≤ level
    · rcases getPathStep_next E m level cur ln level1 result1 hle hstep with heq | ⟨heq, hgrant⟩
      · omega
      · exact ⟨by omega, by omega, hgrant⟩
    · rw [getPathStep_skip E m level cur ln (Nat.not_le.1 hle)] at hstep
      simp only [Option.some.injEq, Flow.next.injEq] at hstep
      omega

/-- Witness of C1: the line at level 2 of a four-line script is executed, and its granting line is found. -/
theorem getPath_gating_sound_witness :
    executes slashEnv ["IF ARTIST".toList, "\tADD FOLDER".toList, "\t\tARTIST".toList, "ALBUM".toList]
        (sampleMeta "Daft Punk" "Discovery" ⟨2001, by decide⟩) 2 = true ∧
    ∃ i gline, i < 2 ∧
      ["IF ARTIST".toList, "\tADD FOLDER".toList, "\t\tARTIST".toList, "ALBUM".toList][i]? = some gline ∧
      getLevel gline + 1 = getLevel "\t\tARTIST".toList ∧
      executes slashEnv ["IF ARTIST".toList, "\tADD FOLDER".toList, "\t\tARTIST".toList, "ALBUM".toList]
        (sampleMeta "Daft Punk" "Discovery" ⟨2001, by decide⟩) i = true ∧
      isGrant slashEnv (sampleMeta "Daft Punk" "Discovery" ⟨2001, by decide⟩) gline := by
  refine ⟨by decide, ?_⟩
  obtain ⟨i, gline, hi, hg, _, _, hlev, hexi, hgr⟩ :=
    (getPath_gating_sound slashEnv
      ["IF ARTIST".toList, "\tADD FOLDER".toList, "\t\tARTIST".toList, "ALBUM".toList]
      (sampleMeta "Daft Punk" "Discovery" ⟨2001, by decide⟩) 2 "\t\tARTIST".toList
      rfl (by decide) (by decide)).1
  exact ⟨i, gline, hi, hg, hlev, hexi, hgr⟩

/-- C2: `STOP` dominance.  If the run executes an instruction whose
tab-stripped text is `STOP`, `getPath` returns the empty string; so it does for
every instruction list that starts with `STOP`, for any metadata. -/
theorem getPath_STOP_dominance (E : Env) (instructions : List Str) (m : Metadata) (j : Nat)
    (line : Str) (hline : instructions[j]? = some line)
    (hex : executes E instructions m j = true)
    (hstop : TrimLeft line "\t".toList = "STOP".toList) :
    getPath E instructions m = some [] ∧
    (∀ (rest : List Str) (m1 : Metadata), getPath E ("STOP".toList :: rest) m1 = some []) := by
  constructor
  · obtain ⟨level, cur, line1, hs, hl, hle⟩ := (executes_iff E instructions m j).1 hex
    rw [hline] at hl
    cases hl
    rw [getPath_eq_loop_drop E instructions m j level cur hs]
    have hdrop : instructions.drop j = line :: instructions.drop (j + 1) := by
      rw [List.getElem?_eq_some_iff] at hline
      obtain ⟨hlt, hget⟩ := hline
      rw [← hget]
      exact List.drop_eq_getElem_cons hlt
    rw [hdrop, getPathLoop, getPathStep_STOP E m level cur line hle hstop]
  · intro rest m1
    rw [getPath, getPathLoop, getPathStep_STOP E m1 0 [] "STOP".toList (by decide) (by decide)]

/-- Witness of C2: `STOP` at level 1 under `ADD FOLDER` is executed after text was accumulated, and the result is empty. -/
theorem getPath_STOP_dominance_witness :
    executes slashEnv ["ADD FOLDER".toList, "\tARTIST".toList, "\tSTOP".toList, "ALBUM".toList]
        (sampleMeta "Daft Punk" "Discovery" ⟨2001, by decide⟩) 2 = true ∧
    getPath slashEnv ["ADD FOLDER".toList, "\tARTIST".toList, "\tSTOP".toList, "ALBUM".toList]
        (sampleMeta "Daft Punk" "Discovery" ⟨2001, by decide⟩) = some [] :=
  ⟨by decide,
   (getPath_STOP_dominance slashEnv
      ["ADD FOLDER".toList, "\tARTIST".toList, "\tSTOP".toList, "ALBUM".toList]
      (sampleMeta "Daft Punk" "Discovery" ⟨2001, by decide⟩) 2 "\tSTOP".toList
      rfl (by decide) (by decide)).1⟩

/-! ## `strings.Index`, `strings.SplitN` -/

theorem Index_some_split (sub : Str) : ∀ (s : Str) (i : Nat), Index s sub = some i →
    s = s.take i ++ sub ++ s.drop (i + sub.length) := by
  intro s
  induction s with
  | nil =>
    intro i h
    unfold Index at h
    by_cases hp : sub.isPrefixOf [] = true
    · have : sub = [] := by
        cases sub with
        | nil => rfl
        | cons a t => simp [List.isPrefixOf] at hp
      simp [this]
    · simp [hp] at h
  | cons c cs ih =>
    intro i h
    unfold Index at h
    by_cases hp : sub.isPrefixOf (c :: cs) = true
    · simp only [hp, if_true, Option.some.injEq] at h
      subst h
      obtain ⟨t, ht⟩ := List.isPrefixOf_iff_prefix.1 hp
      rw [← ht]
      simp
    · simp only [hp] at h
      cases hidx : Index cs sub with
      | none => simp [hidx] at h
      | some k =>
        simp only [hidx, Option.map_some', Bool.false_eq_true, if_false, Option.some.injEq] at h
        subst h
        have := ih k hidx
        simp only [List.take_succ_cons, List.cons_append, Nat.succ_add, List.drop_succ_cons]
        rw [List.append_assoc] at this
        rw [List.append_assoc, ← this]

theorem Index_some_min (sub : Str) : ∀ (s : Str) (i : Nat), Index s sub = some i →
    ∀ l r : Str, s = l ++ sub ++ r → i ≤ l.length := by
  intro s
  induction s with
  | nil =>
    intro i h l r hs
    unfold Index at h
    by_cases hp : sub.isPrefixOf [] = true
    · simp [hp] at h; omega
    · simp [hp] at h
  | cons c cs ih =>
    intro i h l r hs
    unfold Index at h
    by_cases hp : sub.isPrefixOf (c :: cs) = true
    · simp [hp] at h; omega
    · simp only [hp] at h
      cases hidx : Index cs sub with
      | none => simp [hidx] at h
      | some k =>
        simp only [hidx, Option.map_some', Bool.false_eq_true, if_false, Option.some.injEq] at h
        subst h
        cases l with
        | nil =>
          exfalso
          apply hp
          rw [List.isPrefixOf_iff_prefix]
          exact ⟨r, by simpa using hs.symm⟩
        | cons a l1 =>
          simp only [List.cons_append, List.cons.injEq] at hs
          have := ih k hidx l1 r hs.2
          simp only [List.length_cons]
          omega

theorem Index_none (sub : Str) : ∀ (s : Str), Index s sub = none →
    ∀ l r : Str, s ≠ l ++ sub ++ r := by
  intro s
  induction s with
  | nil =>
    intro h l r hs
    unfold Index at h
    by_cases hp : sub.isPrefixOf [] = true
    · simp [hp] at h
    · apply hp
      rw [List.isPrefixOf_iff_prefix]
      have h1 : l = [] ∧ sub = [] ∧ r = [] := by simpa [and_assoc] using hs.symm
      rw [h1.2.1]
  | cons c cs ih =>
    intro h l r hs
    unfold Index at h
    by_cases hp : sub.isPrefixOf (c :: cs) = true
    · simp [hp] at h
    · simp only [hp] at h
      cases hidx : Index cs sub with
      | some k => simp [hidx] at h
      | none =>
        cases l with
        | nil =>
          apply hp
          rw [List.isPrefixOf_iff_prefix]
          exact ⟨r, by simpa using hs.symm⟩
        | cons a l1 =>
          simp only [List.cons_append, List.cons.injEq] at hs
          exact ih hidx l1 r hs.2

theorem Contains_iff (s sub : Str) :
    Contains s sub = true ↔ ∃ l r, s = l ++ sub ++ r := by
  unfold Contains
  constructor
  · intro h
    cases hidx : Index s sub with
    | none => simp [hidx] at h
    | some i => exact ⟨_, _, Index_some_split sub s i hidx⟩
  · rintro ⟨l, r, hs⟩
    cases hidx : Index s sub with
    | none => exact absurd hs (Index_none sub s hidx l r)
    | some i => rfl

/-- The first occurrence of a contained separator: `SplitN(s, sep, 2)` has two
parts, the text before and the text after it. -/
theorem SplitN_two (s sep : Str) (h : Contains s sep = true) :
    ∃ left right, SplitN s sep 2 = [left, right] ∧ s = left ++ sep ++ right ∧
      ∀ l r : Str, s = l ++ sep ++ r → left.length ≤ l.length := by
  unfold Contains at h
  cases hidx : Index s sep with
  | none => simp [hidx] at h
  | some i =>
    refine ⟨s.take i, s.drop (i + sep.length), ?_, Index_some_split sep s i hidx, ?_⟩
    · simp [SplitN, hidx]
    · intro l r hs
      have := Index_some_min sep s i hidx l r hs
      simp only [List.length_take]
      omega

/-! ## `strconv.Atoi` -/

theorem all_isDigit_iff (ds : Str) :
    ds.all isDigit = true ↔ ∀ c ∈ ds, '0'.toNat ≤ c.toNat ∧ c.toNat ≤ '9'.toNat := by
  simp only [List.all_eq_true, isDigit, Bool.and_eq_true, decide_eq_true_eq]
  rfl

theorem Atoi_isSome_iff (v : Str) : (Atoi v).isSome = true ↔ IsIntegerText v := by
  cases v with
  | nil =>
    constructor
    · intro h; simp [Atoi] at h
    · rintro ⟨sign, digits, hv, _, hne, _⟩
      have : sign = [] ∧ digits = [] := by simpa using hv.symm
      exact absurd this.2 hne
  | cons c rest =>
    unfold Atoi IsIntegerText
    generalize (2 ^ 63 : Nat) = B
    by_cases hm : c = '-'
    · subst hm
      simp only [true_or, if_true, decide_True]
      constructor
      · intro h
        by_cases hr : rest = []
        · simp [hr] at h
        · by_cases hd : rest.all isDigit = true
          · by_cases hv : digitsValue rest ≤ B
            · exact ⟨['-'], rest, rfl, Or.inr (Or.inr rfl), hr, (all_isDigit_iff rest).1 hd,
                fun _ => hv, fun hne => absurd rfl hne⟩
            · simp [hr, hd, hv] at h
          · simp [hr, hd] at h
      · rintro ⟨sign, digits, hv, hsign, hne, hdig, hneg, _⟩
        rcases hsign with hs | hs | hs
        · subst hs
          simp only [List.nil_append] at hv
          rw [← hv] at hdig
          exact absurd (hdig '-' (List.mem_cons_self _ _)) (by decide)
        · subst hs
          simp only [List.cons_append, List.nil_append, List.cons.injEq] at hv
          exact absurd hv.1 (by decide)
        · subst hs
          simp only [List.cons_append, List.nil_append, List.cons.injEq, true_and] at hv
          subst hv
          simp [hne, (all_isDigit_iff rest).2 hdig, hneg rfl]
    · by_cases hp : c = '+'
      · subst hp
        simp only [or_true, if_true, hm, decide_False]
        constructor
        · intro h
          by_cases hr : rest = []
          · simp [hr] at h
          · by_cases hd : rest.all isDigit = true
            · by_cases hv : digitsValue rest < B
              · exact ⟨['+'], rest, rfl, Or.inr (Or.inl rfl), hr, (all_isDigit_iff rest).1 hd,
                  fun h' => absurd h' (by decide), fun _ => hv⟩
              · simp [hr, hd, hv] at h
            · simp [hr, hd] at h
        · rintro ⟨sign, digits, hv, hsign, hne, hdig, _, hpos⟩
          rcases hsign with hs | hs | hs
          · subst hs
            simp only [List.nil_append] at hv
            rw [← hv] at hdig
            exact absurd (hdig '+' (List.mem_cons_self _ _)) (by decide)
          · subst hs
            simp only [List.cons_append, List.nil_append, List.cons.injEq, true_and] at hv
            subst hv
            simp [hne, (all_isDigit_iff rest).2 hdig, hpos (by decide)]
          · subst hs
            simp only [List.cons_append, List.nil_append, List.cons.injEq] at hv
            exact absurd hv.1 (by decide)
      · simp only [hm, hp, or_self, if_false, decide_False]
        constructor
        · intro h
          by_cases hd : (c :: rest).all isDigit = true
          · by_cases hv : digitsValue (c :: rest) < B
            · exact ⟨[], c :: rest, rfl, Or.inl rfl, by simp, (all_isDigit_iff _).1 hd,
                fun h' => absurd h' (by decide), fun _ => hv⟩
            · simp [hd, hv] at h
          · simp [hd] at h
        · rintro ⟨sign, digits, hv, hsign, hne, hdig, _, hpos⟩
          rcases hsign with hs | hs | hs
          · subst hs
            simp only [List.nil_append] at hv
            subst hv
            simp [(all_isDigit_iff _).2 hdig, hpos (by decide)]
          · subst hs
            simp only [List.cons_append, List.nil_append, List.cons.injEq] at hv
            exact absurd hv.1 hp
          · subst hs
            simp only [List.cons_append, List.nil_append, List.cons.injEq] at hv
            exact absurd hv.1 hm

/-! ## Conditions -/

theorem firstLastAre_false (s : Str) (a b : Char) : firstLastAre false s a b = some false := rfl

theorem firstLastAre_cons (c : Char) (t : Str) (a b : Char) :
    firstLastAre true (c :: t) a b =
      some (decide (c = a) && decide ((c :: t).getLast? = some b)) := by
  unfold firstLastAre
  have h0 : (c :: t)[0]? = some c := by simp
  have hl : (c :: t)[(c :: t).length - 1]? = (c :: t).getLast? :=
    (List.getLast?_eq_getElem? (c :: t)).symm
  rw [hl]
  have hlast : ∃ x, (c :: t).getLast? = some x :=
    ⟨(c :: t).getLast (by simp), List.getLast?_eq_getLast _ (by simp)⟩
  obtain ⟨x, hx⟩ := hlast
  rw [hx]
  by_cases hca : c = a
  · simp [h0, hca]
  · simp [h0, hca]

theorem removeQuotes_quoted (mid : Str) :
    removeQuotes ([Char.ofNat 34] ++ mid ++ [Char.ofNat 34]) = some mid := by
  unfold removeQuotes
  have hlen : ([Char.ofNat 34] ++ mid ++ [Char.ofNat 34]).length ≥ 2 := by simp
  have hfl : firstLastAre (decide (([Char.ofNat 34] ++ mid ++ [Char.ofNat 34]).length ≥ 2))
      ([Char.ofNat 34] ++ mid ++ [Char.ofNat 34]) (Char.ofNat 34) (Char.ofNat 34) = some true := by
    rw [decide_eq_true hlen]
    show firstLastAre true (Char.ofNat 34 :: (mid ++ [Char.ofNat 34])) _ _ = _
    rw [firstLastAre_cons]
    have : (Char.ofNat 34 :: (mid ++ [Char.ofNat 34])).getLast? = some (Char.ofNat 34) := by
      rw [← List.cons_append, List.getLast?_append]
      simp
    rw [this]
    simp
  rw [hfl]
  simp only [Option.bind_eq_bind, Option.some_bind, if_true]
  unfold slice
  have h1 : 1 ≤ ([Char.ofNat 34] ++ mid ++ [Char.ofNat 34]).length - 1 ∧
      ([Char.ofNat 34] ++ mid ++ [Char.ofNat 34]).length - 1 ≤
        ([Char.ofNat 34] ++ mid ++ [Char.ofNat 34]).length := by
    simp
  rw [if_pos h1]
  have h2 : ([Char.ofNat 34] ++ mid ++ [Char.ofNat 34]).length - 1 = ([Char.ofNat 34] ++ mid).length := by
    simp
  rw [h2, List.take_left']
  · simp
  · rfl

theorem removeQuotes_plain (s : Str)
    (h : ∀ mid, s ≠ [Char.ofNat 34] ++ mid ++ [Char.ofNat 34]) :
    removeQuotes s = some s := by
  unfold removeQuotes
  by_cases hlen : s.length ≥ 2
  · rw [decide_eq_true hlen]
    cases s with
    | nil => simp at hlen
    | cons c t =>
      rw [firstLastAre_cons]
      by_cases hc : c = Char.ofNat 34
      · subst hc
        by_cases hl : (Char.ofNat 34 :: t).getLast? = some (Char.ofNat 34)
        · exfalso
          rcases List.eq_nil_or_concat t with ht | ⟨L, b, ht⟩
          · rw [ht] at hlen
            simp at hlen
          · subst ht
            rw [List.concat_eq_append] at hl h
            have hb : b = Char.ofNat 34 := by
              rw [← List.cons_append, List.getLast?_append] at hl
              simpa using hl
            subst hb
            exact h L (by simp)
        · simp [hl]
      · simp [hc]
  · rw [decide_eq_false hlen, firstLastAre_false]
    rfl

/-- C4, as stated, fails: a custom tag with value `+5` is a number for
`evaluateCondition` although it is not an optional `-` followed by digits, and
a custom tag holding twenty nines is not a number although it is such text. -/
theorem evaluateCondition_is_number_counterexample :
    (getTag slashEnv "CUSTOM:N".toList (rawMeta [("N".toList, RawValue.str "+5".toList)])
        = "+5".toList ∧
      minusDigitsText "+5".toList = false ∧
      evaluateCondition slashEnv "CUSTOM:N is number".toList
        (rawMeta [("N".toList, RawValue.str "+5".toList)]) = some true) ∧
    (getTag slashEnv "CUSTOM:N".toList
        (rawMeta [("N".toList, RawValue.str "99999999999999999999".toList)])
        = "99999999999999999999".toList ∧
      minusDigitsText "99999999999999999999".toList = true ∧
      evaluateCondition slashEnv "CUSTOM:N is number".toList
        (rawMeta [("N".toList, RawValue.str "99999999999999999999".toList)]) = some false) := by
  decide

/-- C4 (amended): for a condition containing ` is number`, with `left` the text
before its first occurrence, `evaluateCondition` returns true exactly when the
value of the tag `TrimSpace left` is non-empty and is integer text as
`strconv.Atoi` accepts it (optional `+` or `-`, digits, within 64 bits). -/
theorem evaluateCondition_is_number (E : Env) (condition : Str) (m : Metadata)
    (h : Contains condition " is number".toList = true) :
    ∃ left right b, condition = left ++ " is number".toList ++ right ∧
      (∀ l r : Str, condition = l ++ " is number".toList ++ r → left.length ≤ l.length) ∧
      evaluateCondition E condition m = some b ∧
      (b = true ↔ getTag E (TrimSpace left) m ≠ [] ∧
        IsIntegerText (getTag E (TrimSpace left) m)) := by
  obtain ⟨left, right, hsplit, hcond, hfirst⟩ := SplitN_two condition " is number".toList h
  have hev : evaluateCondition E condition m =
      some (if getTag E (TrimSpace left) m = [] then false
            else (Atoi (getTag E (TrimSpace left) m)).isSome) := by
    unfold evaluateCondition
    rw [if_pos h, hsplit]
    by_cases hv : getTag E (TrimSpace left) m = []
    · simp [hv]
    · simp [hv]
  refine ⟨left, right, _, hcond, hfirst, hev, ?_⟩
  by_cases hv : getTag E (TrimSpace left) m = []
  · simp [hv]
  · simp only [hv, if_false, ne_eq, not_false_eq_true, true_and]
    exact Atoi_isSome_iff _

/-- Witness of C4 (amended) on the condition `YEAR is number`. -/
theorem evaluateCondition_is_number_witness :
    Contains "YEAR is number".toList " is number".toList = true ∧
    ∃ left right b, "YEAR is number".toList = left ++ " is number".toList ++ right ∧
      (∀ l r : Str, "YEAR is number".toList = l ++ " is number".toList ++ r →
        left.length ≤ l.length) ∧
      evaluateCondition slashEnv "YEAR is number".toList
        (sampleMeta "Daft Punk" "Discovery" ⟨2001, by decide⟩) = some b ∧
      (b = true ↔
        getTag slashEnv (TrimSpace left) (sampleMeta "Daft Punk" "Discovery" ⟨2001, by decide⟩) ≠ [] ∧
        IsIntegerText
          (getTag slashEnv (TrimSpace left) (sampleMeta "Daft Punk" "Discovery" ⟨2001, by decide⟩))) :=
  ⟨by decide,
   evaluateCondition_is_number slashEnv "YEAR is number".toList
     (sampleMeta "Daft Punk" "Discovery" ⟨2001, by decide⟩) (by decide)⟩

/-- C10: a condition that contains `!=` and not ` is number` is an inequality
test between the tag named before the first `!=` and the text after it, one
enclosing pair of double quotes removed. -/
theorem evaluateCondition_not_equal (E : Env) (condition : Str) (m : Metadata)
    (hne : Contains condition "!=".toList = true)
    (hnum : Contains condition " is number".toList = false) :
    (∃ left right b, condition = left ++ "!=".toList ++ right ∧
      (∀ l r : Str, condition = l ++ "!=".toList ++ r → left.length ≤ l.length) ∧
      evaluateCondition E condition m = some b ∧
      (∀ mid, TrimSpace right = [Char.ofNat 34] ++ mid ++ [Char.ofNat 34] →
        (b = true ↔ getTag E (TrimSpace left) m ≠ mid)) ∧
      ((∀ mid, TrimSpace right ≠ [Char.ofNat 34] ++ mid ++ [Char.ofNat 34]) →
        (b = true ↔ getTag E (TrimSpace left) m ≠ TrimSpace right))) ∧
    (∀ m1 : Metadata, evaluateCondition E "YEAR!=2020".toList m1 =
      some (decide (Itoa m1.Year.val ≠ "2020".toList))) := by
  constructor
  · obtain ⟨left, right, hsplit, hcond, hfirst⟩ := SplitN_two condition "!=".toList hne
    have hev : evaluateCondition E condition m =
        (removeQuotes (TrimSpace right)).bind
          (fun e => some (decide (getTag E (TrimSpace left) m ≠ e))) := by
      unfold evaluateCondition
      rw [if_neg (by rw [hnum]; decide), if_pos hne, hsplit]
      simp
    by_cases hq : ∃ mid, TrimSpace right = [Char.ofNat 34] ++ mid ++ [Char.ofNat 34]
    · obtain ⟨mid, hmid⟩ := hq
      refine ⟨left, right, decide (getTag E (TrimSpace left) m ≠ mid), hcond, hfirst, ?_, ?_, ?_⟩
      · rw [hev, hmid, removeQuotes_quoted]
        rfl
      · intro mid1 hmid1
        have : mid1 = mid := by
          rw [hmid] at hmid1
          simpa using hmid1.symm
        rw [this]
        simp
      · intro hno
        exact absurd hmid (hno mid)
    · have hno : ∀ mid, TrimSpace right ≠ [Char.ofNat 34] ++ mid ++ [Char.ofNat 34] :=
        fun mid hmid => hq ⟨mid, hmid⟩
      refine ⟨left, right, decide (getTag E (TrimSpace left) m ≠ TrimSpace right),
        hcond, hfirst, ?_, ?_, ?_⟩
      · rw [hev, removeQuotes_plain _ hno]
        rfl
      · intro mid hmid
        exact absurd hmid (hno mid)
      · intro _
        simp
  · intro m1
    rfl

/-- Witness of C10 on the condition `ARTIST != "Daft Punk"` with that artist: the result is false. -/
theorem evaluateCondition_not_equal_witness :
    Contains "ARTIST != \"Daft Punk\"".toList "!=".toList = true ∧
    Contains "ARTIST != \"Daft Punk\"".toList " is number".toList = false ∧
    evaluateCondition slashEnv "ARTIST != \"Daft Punk\"".toList
      (sampleMeta "Daft Punk" "Discovery" ⟨2001, by decide⟩) = some false ∧
    ∃ left right b, "ARTIST != \"Daft Punk\"".toList = left ++ "!=".toList ++ right ∧
      evaluateCondition slashEnv "ARTIST != \"Daft Punk\"".toList
        (sampleMeta "Daft Punk" "Discovery" ⟨2001, by decide⟩) = some b := by
  refine ⟨by decide, by decide, by decide, ?_⟩
  obtain ⟨left, right, b, hc, _, hb, _⟩ :=
    (evaluateCondition_not_equal slashEnv "ARTIST != \"Daft Punk\"".toList
      (sampleMeta "Daft Punk" "Discovery" ⟨2001, by decide⟩) (by decide) (by decide)).1
  exact ⟨left, right, b, hc, hb⟩

/-! ## Custom tags -/

theorem scanComm_absent (p : Str) : ∀ raw : List (Str × RawValue),
    (∀ key lang text, (key, RawValue.comm lang p text) ∉ raw) → scanComm p raw = [] := by
  intro raw
  induction raw with
  | nil => intro _; rfl
  | cons e rest ih =>
    intro h
    have hrest : ∀ key lang text, (key, RawValue.comm lang p text) ∉ rest :=
      fun key lang text hmem => h key lang text (List.mem_cons_of_mem _ hmem)
    obtain ⟨key, v⟩ := e
    cases v with
    | str s => simp only [scanComm]; exact ih hrest
    | other => simp only [scanComm]; exact ih hrest
    | comm lang d text =>
      simp only [scanComm]
      by_cases hd : d = p
      · subst hd
        exact absurd (List.mem_cons_self _ _) (h key lang text)
      · rw [if_neg hd]
        exact ih hrest

theorem scanComm_first (p : Str) (key lang text : Str) (post : List (Str × RawValue)) :
    ∀ pre : List (Str × RawValue),
      (∀ key1 lang1 text1, (key1, RawValue.comm lang1 p text1) ∉ pre) →
      scanComm p (pre ++ (key, RawValue.comm lang p text) :: post) = text := by
  intro pre
  induction pre with
  | nil => intro _; simp [scanComm]
  | cons e rest ih =>
    intro h
    have hrest : ∀ key1 lang1 text1, (key1, RawValue.comm lang1 p text1) ∉ rest :=
      fun key1 lang1 text1 hmem => h key1 lang1 text1 (List.mem_cons_of_mem _ hmem)
    obtain ⟨key0, v⟩ := e
    cases v with
    | str s => simp only [List.cons_append, scanComm]; exact ih hrest
    | other => simp only [List.cons_append, scanComm]; exact ih hrest
    | comm lang0 d text0 =>
      simp only [List.cons_append, scanComm]
      by_cases hd : d = p
      · subst hd
        exact absurd (List.mem_cons_self _ _) (h key0 lang0 text0)
      · rw [if_neg hd]
        exact ih hrest

/-- One probe that finds nothing: no string under the flat key `p` other than
the empty one, and no description equal to `p`. -/
theorem probe_empty (m : Metadata) (p : Str)
    (hflat : ∀ s, m.Raw.lookup p = some (RawValue.str s) → s = [])
    (hdesc : ∀ key lang text, (key, RawValue.comm lang p text) ∉ m.Raw) :
    _extractCustomTag m p = [] := by
  unfold _extractCustomTag
  split
  · rename_i str hl
    exact hflat str hl
  · exact scanComm_absent p m.Raw hdesc

/-- C5, as stated, fails: the flat key `GROUP` holds `flat`, no flat key is
`group`, and still the probe of the exact name returns the text of the entry
described `group`. -/
theorem extractCustomTag_counterexample :
    (rawMeta [("GROUP".toList, RawValue.str "flat".toList),
        ("TXXX".toList, RawValue.comm "eng".toList "group".toList "described".toList)]).Raw.lookup
          (ToUpper slashEnv "group".toList) = some (RawValue.str "flat".toList) ∧
    (rawMeta [("GROUP".toList, RawValue.str "flat".toList),
        ("TXXX".toList, RawValue.comm "eng".toList "group".toList "described".toList)]).Raw.lookup
          "group".toList = none ∧
    extractCustomTag slashEnv
      (rawMeta [("GROUP".toList, RawValue.str "flat".toList),
        ("TXXX".toList, RawValue.comm "eng".toList "group".toList "described".toList)])
      "group".toList = "described".toList := by
  decide

/-- C5 (amended): `extractCustomTag` returns the first non-empty result of
three probes, of the exact, the uppercased and the lowercased name; a probe
returns the string under the flat key when there is one, and otherwise the text
of the first entry whose description equals the probed name.  When the flat key
`upper(name)` holds a non-empty string, no flat key equals `name` and no entry
is described `name`, the result is that string. -/
theorem extractCustomTag_probing (E : Env) (m : Metadata) (name : Str) :
    (extractCustomTag E m name =
      (([name, ToUpper E name, ToLower E name].map (_extractCustomTag m)).find?
        (fun v => decide (v ≠ []))).getD []) ∧
    (∀ p s, m.Raw.lookup p = some (RawValue.str s) → _extractCustomTag m p = s) ∧
    (∀ p, (∀ s, m.Raw.lookup p ≠ some (RawValue.str s)) →
      ((∀ key lang text, (key, RawValue.comm lang p text) ∉ m.Raw) →
        _extractCustomTag m p = []) ∧
      (∀ pre post key lang text, m.Raw = pre ++ (key, RawValue.comm lang p text) :: post →
        (∀ key1 lang1 text1, (key1, RawValue.comm lang1 p text1) ∉ pre) →
        _extractCustomTag m p = text)) ∧
    (∀ v, m.Raw.lookup (ToUpper E name) = some (RawValue.str v) → v ≠ [] →
      m.Raw.lookup name = none →
      (∀ key lang text, (key, RawValue.comm lang name text) ∉ m.Raw) →
      extractCustomTag E m name = v) := by
  have hflat : ∀ p s, m.Raw.lookup p = some (RawValue.str s) → _extractCustomTag m p = s := by
    intro p s h
    simp [_extractCustomTag, h]
  have hscan : ∀ p, (∀ s, m.Raw.lookup p ≠ some (RawValue.str s)) →
      _extractCustomTag m p = scanComm p m.Raw := by
    intro p h
    unfold _extractCustomTag
    split
    · rename_i str hl
      exact absurd hl (h str)
    · rfl
  refine ⟨?_, hflat, ?_, ?_⟩
  · unfold extractCustomTag
    by_cases h1 : _extractCustomTag m name = []
    · by_cases h2 : _extractCustomTag m (ToUpper E name) = []
      · by_cases h3 : _extractCustomTag m (ToLower E name) = []
        · simp [h1, h2, h3]
        · simp [h1, h2, h3]
      · simp [h1, h2]
    · simp [h1]
  · intro p hp
    constructor
    · intro hno
      rw [hscan p hp]
      exact scanComm_absent p m.Raw hno
    · intro pre post key lang text hraw hpre
      rw [hscan p hp, hraw]
      exact scanComm_first p key lang text post pre hpre
  · intro v hup hv hname hdesc
    have h1 : _extractCustomTag m name = [] :=
      probe_empty m name (fun s hs => by rw [hname] at hs; cases hs) hdesc
    have h2 : _extractCustomTag m (ToUpper E name) = v := hflat _ v hup
    unfold extractCustomTag
    simp [h1, h2, hv]

/-- Witness of C5 (amended): the sole flat key `GROUP` answers the sought name `group`. -/
theorem extractCustomTag_probing_witness :
    extractCustomTag slashEnv (rawMeta [("GROUP".toList, RawValue.str "Remix".toList)])
      "group".toList = "Remix".toList :=
  (extractCustomTag_probing slashEnv (rawMeta [("GROUP".toList, RawValue.str "Remix".toList)])
    "group".toList).2.2.2 "Remix".toList (by decide) (by decide) (by decide)
    (by intro key lang text h; simp [rawMeta] at h)

/-- C6, as stated, fails: an entry described `GROUP` is matched by the sought
name `group` (by the probe of the uppercased name), and the sought name is
trimmed before the probes. -/
theorem getTag_custom_counterexample :
    ((∀ k ∈ ["group".toList, ToUpper slashEnv "group".toList, ToLower slashEnv "group".toList],
        (rawMeta [("TXXX".toList, RawValue.comm "eng".toList "GROUP".toList "Remix".toList)]).Raw.lookup k
          = none) ∧
      (∀ e ∈ (rawMeta [("TXXX".toList,
          RawValue.comm "eng".toList "GROUP".toList "Remix".toList)]).Raw,
        ∀ lang text, e.2 ≠ RawValue.comm lang "group".toList text) ∧
      getTag slashEnv ("CUSTOM:".toList ++ "group".toList)
        (rawMeta [("TXXX".toList, RawValue.comm "eng".toList "GROUP".toList "Remix".toList)])
          = "Remix".toList ∧
      getTag slashEnv ("TXXX:".toList ++ "group".toList)
        (rawMeta [("TXXX".toList, RawValue.comm "eng".toList "GROUP".toList "Remix".toList)])
          = "Remix".toList) ∧
    ((∀ k ∈ [" mood".toList, ToUpper slashEnv " mood".toList, ToLower slashEnv " mood".toList],
        (rawMeta [("mood".toList, RawValue.str "calm".toList)]).Raw.lookup k = none) ∧
      getTag slashEnv ("CUSTOM:".toList ++ " mood".toList)
        (rawMeta [("mood".toList, RawValue.str "calm".toList)]) = "calm".toList) := by
  refine ⟨⟨by decide, ?_, by decide, by decide⟩, by decide, by decide⟩
  intro e he lang text
  simp [rawMeta] at he
  subst he
  simp

theorem getTag_prefixed (E : Env) (m : Metadata) (name : Str) :
    getTag E ("CUSTOM:".toList ++ name) m = extractCustomTag E m (TrimSpace name) ∧
    getTag E ("TXXX:".toList ++ name) m = extractCustomTag E m (TrimSpace name) := by
  constructor
  · unfold getTag
    have h : HasPrefix ("CUSTOM:".toList ++ name) "CUSTOM:".toList = true := by
      simp [HasPrefix]
    rw [if_pos h, TrimPrefix, if_pos h, List.drop_left' rfl]
  · unfold getTag
    have h0 : HasPrefix ("TXXX:".toList ++ name) "CUSTOM:".toList = false := by
      simp [HasPrefix, List.isPrefixOf]
    have h : HasPrefix ("TXXX:".toList ++ name) "TXXX:".toList = true := by
      simp [HasPrefix]
    rw [if_neg (by rw [h0]; decide), if_pos h, TrimPrefix, if_pos h, List.drop_left' rfl]

/-- C6 (amended): with `n` the sought name trimmed of surrounding white space,
if none of the flat keys `n`, `upper(n)`, `lower(n)` holds a non-empty string
and no entry has a description equal to `n`, `upper(n)` or `lower(n)`, then
`getTag` of `CUSTOM:name` and of `TXXX:name` is the empty string. -/
theorem getTag_custom_absent (E : Env) (m : Metadata) (name : Str)
    (hflat : ∀ k ∈ [TrimSpace name, ToUpper E (TrimSpace name), ToLower E (TrimSpace name)],
      ∀ s, m.Raw.lookup k = some (RawValue.str s) → s = [])
    (hdesc : ∀ key lang d text, (key, RawValue.comm lang d text) ∈ m.Raw →
      d ≠ TrimSpace name ∧ d ≠ ToUpper E (TrimSpace name) ∧ d ≠ ToLower E (TrimSpace name)) :
    getTag E ("CUSTOM:".toList ++ name) m = [] ∧ getTag E ("TXXX:".toList ++ name) m = [] := by
  have h1 : _extractCustomTag m (TrimSpace name) = [] :=
    probe_empty m _ (hflat _ (by simp))
      (fun key lang text hmem => (hdesc key lang _ text hmem).1 rfl)
  have h2 : _extractCustomTag m (ToUpper E (TrimSpace name)) = [] :=
    probe_empty m _ (hflat _ (by simp))
      (fun key lang text hmem => (hdesc key lang _ text hmem).2.1 rfl)
  have h3 : _extractCustomTag m (ToLower E (TrimSpace name)) = [] :=
    probe_empty m _ (hflat _ (by simp))
      (fun key lang text hmem => (hdesc key lang _ text hmem).2.2 rfl)
  have hx : extractCustomTag E m (TrimSpace name) = [] := by
    unfold extractCustomTag
    simp [h1, h2, h3]
  rw [(getTag_prefixed E m name).1, (getTag_prefixed E m name).2, hx]
  exact ⟨rfl, rfl⟩

/-- Witness of C6 (amended): a sole entry described `Group` is not matched by the sought name `group`. -/
theorem getTag_custom_absent_witness :
    getTag slashEnv ("CUSTOM:".toList ++ "group".toList)
      (rawMeta [("TXXX".toList, RawValue.comm "eng".toList "Group".toList "Remix".toList)]) = [] ∧
    getTag slashEnv ("TXXX:".toList ++ "group".toList)
      (rawMeta [("TXXX".toList, RawValue.comm "eng".toList "Group".toList "Remix".toList)]) = [] :=
  getTag_custom_absent slashEnv
    (rawMeta [("TXXX".toList, RawValue.comm "eng".toList "Group".toList "Remix".toList)])
    "group".toList
    (by
      have hnone : ∀ k ∈ [TrimSpace "group".toList, ToUpper slashEnv (TrimSpace "group".toList),
          ToLower slashEnv (TrimSpace "group".toList)],
          (rawMeta [("TXXX".toList,
            RawValue.comm "eng".toList "Group".toList "Remix".toList)]).Raw.lookup k = none := by
        decide
      intro k hk s hs
      rw [hnone k hk] at hs
      cases hs)
    (by
      intro key lang d text hmem
      simp [rawMeta] at hmem
      obtain ⟨_, _, hd, _⟩ := hmem
      subst hd
      decide)

/-! ## Scenarios and preprocessing -/

set_option maxHeartbeats 4000000 in
/-- C9: Scenario A.  The script, cleaned and split on newlines, is the eight
lines `scenarioLines`, and with year 2001 and `/` as separator `getPath` returns
`/Daft Punk/[2001] Discovery`. -/
theorem scenarioA_path (upper lower : Char → Char) :
    (cleanScript scenarioScript).map (fun cleaned => Split cleaned '\n') = some scenarioLines ∧
    getPath ⟨'/', upper, lower⟩ scenarioLines
      (sampleMeta "Daft Punk" "Discovery" ⟨2001, by decide⟩) =
        some "/Daft Punk/[2001] Discovery".toList :=
  ⟨by decide, by rfl⟩

set_option maxHeartbeats 4000000 in
/-- C3: with the year reported as 0 the Scenario A script does not yield
`/Daft Punk/Discovery`.  The absent tags `GENRE` and `PICTURE` resolve to the
empty text, but `YEAR` resolves to the text `0`, so the line
`IF(YEAR is number)` grants level 1, the bracket block is executed and
`getPath` returns `/Daft Punk/[0] Discovery`. -/
theorem scenarioB_path (upper lower : Char → Char) :
    (cleanScript scenarioScript).map (fun cleaned => Split cleaned '\n') = some scenarioLines ∧
    getTag ⟨'/', upper, lower⟩ "GENRE".toList
      (sampleMeta "Daft Punk" "Discovery" ⟨0, by decide⟩) = [] ∧
    getTag ⟨'/', upper, lower⟩ "PICTURE".toList
      (sampleMeta "Daft Punk" "Discovery" ⟨0, by decide⟩) = [] ∧
    getTag ⟨'/', upper, lower⟩ "YEAR".toList
      (sampleMeta "Daft Punk" "Discovery" ⟨0, by decide⟩) = "0".toList ∧
    ifGrants ⟨'/', upper, lower⟩ (sampleMeta "Daft Punk" "Discovery" ⟨0, by decide⟩)
      "IF(YEAR is number)".toList = some true ∧
    getPath ⟨'/', upper, lower⟩ scenarioLines
      (sampleMeta "Daft Punk" "Discovery" ⟨0, by decide⟩) =
        some "/Daft Punk/[0] Discovery".toList ∧
    getPath ⟨'/', upper, lower⟩ scenarioLines
      (sampleMeta "Daft Punk" "Discovery" ⟨0, by decide⟩) ≠
        some "/Daft Punk/Discovery".toList := by
  have hpath : getPath ⟨'/', upper, lower⟩ scenarioLines
      (sampleMeta "Daft Punk" "Discovery" ⟨0, by decide⟩) =
        some "/Daft Punk/[0] Discovery".toList := by rfl
  refine ⟨by decide, by rfl, by rfl, by rfl, by rfl, hpath, ?_⟩
  rw [hpath]
  decide

/-- C7: `cleanScript` is not idempotent on a line that ends in a space
followed by a tab: the first pass leaves the space, the second removes it. -/
theorem cleanScript_twice_differs :
    cleanScript "ARTIST \t".toList = some "ARTIST ".toList ∧
    cleanScript "ARTIST ".toList = some "ARTIST".toList ∧
    (cleanScript "ARTIST \t".toList).bind cleanScript ≠ cleanScript "ARTIST \t".toList := by
  decide

/-- C8: `cleanScript` leaves a trailing space on a line that ends in a space
followed by a tab, and a trailing tab on one that ends in four spaces and a tab. -/
theorem cleanScript_trailing_whitespace :
    cleanScript "ALBUM \t".toList = some "ALBUM ".toList ∧
    (Split "ALBUM ".toList '\n').map List.getLast? = [some ' '] ∧
    cleanScript "ALBUM    \t".toList = some "ALBUM\t".toList ∧
    (Split "ALBUM\t".toList '\n').map List.getLast? = [some '\t'] := by
  decide

/-! ## `NewSorter` -/

/-- C16: safe default mode.  `NewSorter` keeps the mode when it is `move`,
`copy` or `preview` and stores `preview` for every other string; the three
paths are the arguments and the log is empty. -/
theorem NewSorter_mode (folderPath scriptPath newLibraryPath mode : Str) :
    ((NewSorter folderPath scriptPath newLibraryPath mode).FileOperationMode =
      if mode = "move".toList ∨ mode = "copy".toList ∨ mode = "preview".toList then mode
      else "preview".toList) ∧
    (NewSorter folderPath scriptPath newLibraryPath []).FileOperationMode = "preview".toList ∧
    (NewSorter folderPath scriptPath newLibraryPath mode).FolderPath = folderPath ∧
    (NewSorter folderPath scriptPath newLibraryPath mode).ScriptPath = scriptPath ∧
    (NewSorter folderPath scriptPath newLibraryPath mode).NewLibraryPath = newLibraryPath ∧
    (NewSorter folderPath scriptPath newLibraryPath mode).Logs = [] := by
  refine ⟨?_, rfl, rfl, rfl, rfl, rfl⟩
  unfold NewSorter
  by_cases h1 : mode = "move".toList
  · subst h1; rfl
  · by_cases h2 : mode = "copy".toList
    · subst h2; rfl
    · by_cases h3 : mode = "preview".toList
      · subst h3; rfl
      · simp only [h1, h2, h3, ne_eq, not_false_eq_true, and_self, or_true, if_true, or_self,
          if_false]

/-! ## Legacy `IF` and skipped lines -/

theorem firstLastAre_isSome (lenOk : Bool) (s : Str) (a b : Char) (h : lenOk = true → s ≠ []) :
    ∃ r, firstLastAre lenOk s a b = some r ∧
      (r = true ↔ lenOk = true ∧ s.head? = some a ∧ s.getLast? = some b) := by
  cases lenOk with
  | false => exact ⟨false, rfl, by simp⟩
  | true =>
    cases s with
    | nil => exact absurd rfl (h rfl)
    | cons c t =>
      refine ⟨_, firstLastAre_cons c t a b, ?_⟩
      simp

/-- The legacy form of `IF`: the trimmed text after `IF` is not wrapped in
parentheses, and the line grants exactly when that text, as one tag name, has a
non-empty value. -/
theorem ifGrants_legacy (E : Env) (m : Metadata) (rest : Str)
    (hw : ¬ ((TrimSpace rest).length > 2 ∧ (TrimSpace rest).head? = some '(' ∧
      (TrimSpace rest).getLast? = some ')')) :
    ifGrants E m ("IF".toList ++ rest) = some (decide (getTag E (TrimSpace rest) m ≠ [])) := by
  unfold ifGrants
  have hp : TrimPrefix ("IF".toList ++ rest) "IF".toList = rest := by
    have h : HasPrefix ("IF".toList ++ rest) "IF".toList = true := by simp [HasPrefix]
    rw [TrimPrefix, if_pos h, List.drop_left' rfl]
  rw [hp]
  obtain ⟨r, hr, hiff⟩ := firstLastAre_isSome (decide ((TrimSpace rest).length > 2))
    (TrimSpace rest) '(' ')' (by
      intro h hnil
      rw [hnil] at h
      simp at h)
  have hfalse : r = false := by
    cases r with
    | false => rfl
    | true =>
      exfalso
      apply hw
      have := hiff.1 rfl
      exact ⟨by simpa using this.1, this.2.1, this.2.2⟩
  dsimp only
  rw [hr, hfalse]
  rfl

/-- C14: the legacy `IF` form.  An executed line `IF` + rest whose trimmed rest
is not wrapped in parentheses grants the next level exactly when `getTag` of the
trimmed rest, taken as one tag name, is non-empty; the accumulated result is
unchanged.  So `IF ARTIST == "x"` never grants a level. -/
theorem getPath_legacy_IF (E : Env) (instructions : List Str) (m : Metadata) (j level : Nat)
    (cur line rest : Str) (hline : instructions[j]? = some line)
    (hstate : stateBefore E instructions m j = some (level, cur))
    (hex : getLevel line ≤ level)
    (hrest : TrimLeft line "\t".toList = "IF".toList ++ rest)
    (hw : ¬ ((TrimSpace rest).length > 2 ∧ (TrimSpace rest).head? = some '(' ∧
      (TrimSpace rest).getLast? = some ')')) :
    stateBefore E instructions m (j + 1) =
      some (if getTag E (TrimSpace rest) m ≠ [] then getLevel line + 1 else getLevel line, cur) ∧
    (∀ m1 : Metadata, ifGrants E m1 "IF ARTIST == \"x\"".toList = some false) := by
  constructor
  · have hstep : getPathStep E m level cur line =
        some (Flow.next (if getTag E (TrimSpace rest) m ≠ [] then getLevel line + 1
          else getLevel line) cur) := by
      unfold getPathStep
      rw [if_pos hex]
      dsimp only
      rw [hrest]
      have hp : HasPrefix ("IF".toList ++ rest) "IF".toList = true := by simp [HasPrefix]
      rw [if_pos hp, ifGrants_legacy E m rest hw]
      by_cases hv : getTag E (TrimSpace rest) m = []
      · simp [hv]
      · simp [hv]
    rw [stateBefore, hstate, hline]
    simp only [hstep]
  · intro m1
    rfl

/-- Witness of C14: `IF GENRE` on a metadata without genre leaves the cursor at 0. -/
theorem getPath_legacy_IF_witness :
    stateBefore slashEnv ["IF GENRE".toList, "\tSTOP".toList]
      (sampleMeta "Daft Punk" "Discovery" ⟨2001, by decide⟩) 1 = some (0, []) := by
  have h := (getPath_legacy_IF slashEnv ["IF GENRE".toList, "\tSTOP".toList]
    (sampleMeta "Daft Punk" "Discovery" ⟨2001, by decide⟩) 0 0 [] "IF GENRE".toList
    " GENRE".toList rfl rfl (by decide) (by decide) (by decide)).1
  exact h

theorem stateBefore_congr (E : Env) (l1 l2 : List Str) (m : Metadata) :
    ∀ k, (∀ j, j < k → l1[j]? = l2[j]?) →
      stateBefore E l1 m k = stateBefore E l2 m k := by
  intro k
  induction k with
  | zero => intro _; rfl
  | succ k ih =>
    intro h
    rw [stateBefore, stateBefore, ih (fun j hj => h j (Nat.lt_succ_of_lt hj)),
      h k (Nat.lt_succ_self k)]

/-- C17: skipped instructions are inert.  If the run of `getPath` reaches
instruction `i` with a cursor below its level, the list without instruction `i`
gives the same result. -/
theorem getPath_skip_inert (E : Env) (instructions : List Str) (m : Metadata) (i : Nat)
    (h : skips E instructions m i = true) :
    getPath E (instructions.eraseIdx i) m = getPath E instructions m := by
  unfold skips at h
  cases hs : stateBefore E instructions m i with
  | none => simp [hs] at h
  | some st =>
    obtain ⟨level, cur⟩ := st
    cases hl : instructions[i]? with
    | none => simp [hs, hl] at h
    | some line =>
      simp only [hs, hl, decide_eq_true_eq] at h
      have hlt : i < instructions.length := by
        rw [List.getElem?_eq_some_iff] at hl
        exact hl.1
      have hdrop : instructions.drop i = line :: instructions.drop (i + 1) := by
        rw [List.getElem?_eq_some_iff] at hl
        obtain ⟨hlt, hget⟩ := hl
        rw [← hget]
        exact List.drop_eq_getElem_cons hlt
      have hs2 : stateBefore E (instructions.eraseIdx i) m i = some (level, cur) := by
        rw [← hs]
        apply stateBefore_congr
        intro j hj
        rw [List.getElem?_eraseIdx, if_pos hj]
      have hdrop2 : (instructions.eraseIdx i).drop i = instructions.drop (i + 1) := by
        rw [List.eraseIdx_eq_take_drop_succ]
        have hlen : (instructions.take i).length = i := by
          rw [List.length_take]
          omega
        exact List.drop_left' hlen
      rw [getPath_eq_loop_drop E _ m i level cur hs2, hdrop2,
        getPath_eq_loop_drop E instructions m i level cur hs, hdrop, getPathLoop,
        getPathStep_skip E m level cur line h]

/-- Witness of C17: the line at level 1 after a false `IF` is skipped, and
removing it does not change the result. -/
theorem getPath_skip_inert_witness :
    skips slashEnv ["IF GENRE".toList, "\tSTOP".toList, "ARTIST".toList]
      (sampleMeta "Daft Punk" "Discovery" ⟨2001, by decide⟩) 1 = true ∧
    getPath slashEnv ["IF GENRE".toList, "ARTIST".toList]
      (sampleMeta "Daft Punk" "Discovery" ⟨2001, by decide⟩) =
    getPath slashEnv ["IF GENRE".toList, "\tSTOP".toList, "ARTIST".toList]
      (sampleMeta "Daft Punk" "Discovery" ⟨2001, by decide⟩) :=
  ⟨by decide,
   getPath_skip_inert slashEnv ["IF GENRE".toList, "\tSTOP".toList, "ARTIST".toList]
     (sampleMeta "Daft Punk" "Discovery" ⟨2001, by decide⟩) 1 (by decide)⟩

/-! ## Numeric tags -/

theorem digitChar_toNat (d : Nat) (h : d < 10) : (digitChar d).toNat = 48 + d := by
  interval_cases d <;> rfl

theorem digitsValue_append (ds : Str) (c : Char) :
    digitsValue (ds ++ [c]) = digitsValue ds * 10 + (c.toNat - 48) := by
  simp [digitsValue, List.foldl_append]

/-- With enough fuel `formatBits` puts in front of `acc` a non-empty string of
decimal digits whose value is `n`. -/
theorem formatBits_spec : ∀ (fuel n : Nat) (acc : Str), n < fuel →
    ∃ ds : Str, formatBits fuel n acc = ds ++ acc ∧ ds ≠ [] ∧ ds.all isDigit = true ∧
      digitsValue ds = n := by
  intro fuel
  induction fuel with
  | zero => intro n acc h; omega
  | succ fuel ih =>
    intro n acc h
    rw [formatBits]
    by_cases h10 : n < 10
    · rw [if_pos h10]
      refine ⟨[digitChar n], rfl, by simp, ?_, ?_⟩
      · simp [isDigit, digitChar_toNat n h10]
        omega
      · simp [digitsValue, digitChar_toNat n h10]
    · rw [if_neg h10]
      have hdiv : n / 10 < fuel := by omega
      obtain ⟨ds, heq, hne, hall, hval⟩ := ih (n / 10) (digitChar (n % 10) :: acc) hdiv
      have hmod : n % 10 < 10 := Nat.mod_lt _ (by decide)
      refine ⟨ds ++ [digitChar (n % 10)], ?_, by simp, ?_, ?_⟩
      · rw [heq]; simp
      · rw [List.all_append, hall]
        simp [isDigit, digitChar_toNat _ hmod]
        omega
      · rw [digitsValue_append, hval, digitChar_toNat _ hmod]
        omega

/-- The decimal rendering of a 64-bit `int` is non-empty and parses back. -/
theorem Atoi_Itoa (i : GoInt) : Itoa i.val ≠ [] ∧ Atoi (Itoa i.val) = some i.val := by
  obtain ⟨n, hlo, hhi⟩ := i
  obtain ⟨ds, heq, hne, hall, hval⟩ := formatBits_spec (n.natAbs + 1) n.natAbs [] (by omega)
  rw [List.append_nil] at heq
  dsimp only
  unfold Itoa
  by_cases hneg : n < 0
  · rw [if_pos hneg, heq]
    refine ⟨by simp, ?_⟩
    unfold Atoi
    have hb : digitsValue ds ≤ 2 ^ 63 := by rw [hval]; omega
    simp only [true_or, if_true, decide_True, hne, if_false, hall, hb]
    rw [hval]
    congr 1
    omega
  · rw [if_neg hneg, heq]
    refine ⟨hne, ?_⟩
    cases ds with
    | nil => exact absurd rfl hne
    | cons c rest =>
      have hc : isDigit c = true := by
        have := hall
        simp only [List.all_cons, Bool.and_eq_true] at this
        exact this.1
      have hm : c ≠ '-' := by
        intro h; subst h; revert hc; decide
      have hp : c ≠ '+' := by
        intro h; subst h; revert hc; decide
      unfold Atoi
      have hb : digitsValue (c :: rest) < 2 ^ 63 := by rw [hval]; omega
      simp only [hm, hp, or_self, if_false, decide_False, hall, if_true, hb]
      simp only [List.cons_ne_nil, if_false, Bool.false_eq_true]
      rw [hval]
      congr 1
      omega

theorem getTag_numeric (E : Env) (m : Metadata) :
    getTag E "YEAR".toList m = Itoa m.Year.val ∧
    getTag E "TRACK".toList m = Itoa m.Track.1.val ∧
    getTag E "DISC".toList m = Itoa m.Disc.1.val :=
  ⟨rfl, rfl, rfl⟩

theorem evaluateCondition_number_eq (E : Env) (condition : Str) (m : Metadata) (left right : Str)
    (h : Contains condition " is number".toList = true)
    (hsplit : SplitN condition " is number".toList 2 = [left, right]) :
    evaluateCondition E condition m =
      some (if getTag E (TrimSpace left) m = [] then false
            else (Atoi (getTag E (TrimSpace left) m)).isSome) := by
  unfold evaluateCondition
  rw [if_pos h, hsplit]
  by_cases hv : getTag E (TrimSpace left) m = []
  · simp [hv]
  · simp [hv]

theorem evaluateCondition_bare (E : Env) (condition : Str) (m : Metadata)
    (h1 : Contains condition " is number".toList = false)
    (h2 : Contains condition "!=".toList = false)
    (h3 : Contains condition "==".toList = false) :
    evaluateCondition E condition m = some (decide (getTag E (TrimSpace condition) m ≠ [])) := by
  unfold evaluateCondition
  rw [if_neg (by rw [h1]; decide), if_neg (by rw [h2]; decide), if_neg (by rw [h3]; decide)]
  rfl

/-- C18: numeric tags are never absent.  `YEAR`, `TRACK` and `DISC` resolve to
non-empty strings that `strconv.Atoi` parses back to the integer the metadata
reports, so `YEAR is number`, the bare condition `YEAR` and the legacy line
`IF YEAR` are true for every metadata. -/
theorem numeric_tags_present (E : Env) (m : Metadata) :
    (getTag E "YEAR".toList m ≠ [] ∧ Atoi (getTag E "YEAR".toList m) = some m.Year.val) ∧
    (getTag E "TRACK".toList m ≠ [] ∧ Atoi (getTag E "TRACK".toList m) = some m.Track.1.val) ∧
    (getTag E "DISC".toList m ≠ [] ∧ Atoi (getTag E "DISC".toList m) = some m.Disc.1.val) ∧
    evaluateCondition E "YEAR is number".toList m = some true ∧
    evaluateCondition E "YEAR".toList m = some true ∧
    ifGrants E m "IF YEAR".toList = some true := by
  obtain ⟨hy, ht, hd⟩ := getTag_numeric E m
  have hyear := Atoi_Itoa m.Year
  have htrim : TrimSpace "YEAR".toList = "YEAR".toList := by decide
  refine ⟨?_, ?_, ?_, ?_, ?_, ?_⟩
  · rw [hy]; exact hyear
  · rw [ht]; exact Atoi_Itoa m.Track.1
  · rw [hd]; exact Atoi_Itoa m.Disc.1
  · rw [evaluateCondition_number_eq E "YEAR is number".toList m "YEAR".toList [] (by decide)
      (by decide), htrim, hy, if_neg hyear.1, hyear.2]
    rfl
  · rw [evaluateCondition_bare E "YEAR".toList m (by decide) (by decide) (by decide), htrim, hy,
      decide_eq_true hyear.1]
  · have hrest : TrimSpace " YEAR".toList = "YEAR".toList := by decide
    have h := ifGrants_legacy E m " YEAR".toList (by rw [hrest]; decide)
    rw [hrest, hy, decide_eq_true hyear.1] at h
    exact h

/-! ## `strings.Split` and joined lines -/

theorem Split_ne_nil (sep : Char) : ∀ s : Str, Split s sep ≠ [] := by
  intro s
  cases s with
  | nil => simp [Split]
  | cons c cs =>
    unfold Split
    by_cases h : c = sep
    · simp [h]
    · simp only [h, if_false]
      split <;> simp

theorem Split_cons_ne (sep c : Char) (cs : Str) (h : c ≠ sep) :
    ∃ hd tl, Split cs sep = hd :: tl ∧ Split (c :: cs) sep = (c :: hd) :: tl := by
  cases hs : Split cs sep with
  | nil => exact absurd hs (Split_ne_nil sep cs)
  | cons hd tl =>
    refine ⟨hd, tl, rfl, ?_⟩
    rw [Split, if_neg h, hs]

theorem Split_cons_eq (sep : Char) (cs : Str) :
    Split (sep :: cs) sep = [] :: Split cs sep := by
  rw [Split, if_pos rfl]

theorem Split_not_mem (sep : Char) : ∀ s : Str, sep ∉ s → Split s sep = [s] := by
  intro s
  induction s with
  | nil => intro _; rfl
  | cons c cs ih =>
    intro h
    have hc : c ≠ sep := fun hc => h (hc ▸ List.mem_cons_self _ _)
    have hcs : sep ∉ cs := fun hm => h (List.mem_cons_of_mem _ hm)
    obtain ⟨hd, tl, h1, h2⟩ := Split_cons_ne sep c cs hc
    rw [h2]
    rw [ih hcs] at h1
    cases h1
    rfl

theorem Split_append (sep : Char) (b : Str) : ∀ a : Str,
    Split (a ++ sep :: b) sep = Split a sep ++ Split b sep := by
  intro a
  induction a with
  | nil => rw [List.nil_append, Split_cons_eq]; rfl
  | cons c cs ih =>
    by_cases hc : c = sep
    · subst hc
      rw [List.cons_append, Split_cons_eq, Split_cons_eq, ih]
      rfl
    · obtain ⟨hd, tl, h1, h2⟩ := Split_cons_ne sep c cs hc
      obtain ⟨hd1, tl1, h3, h4⟩ := Split_cons_ne sep c (cs ++ sep :: b) hc
      rw [List.cons_append, h4, h2]
      rw [ih, h1] at h3
      simp only [List.cons_append, List.cons.injEq] at h3
      rw [← h3.1, ← h3.2]
      rfl

theorem Split_mem (sep : Char) : ∀ (s : Str), ∀ l ∈ Split s sep, sep ∉ l := by
  intro s
  induction s with
  | nil =>
    intro l hl
    simp [Split] at hl
    simp [hl]
  | cons c cs ih =>
    intro l hl
    by_cases hc : c = sep
    · subst hc
      rw [Split_cons_eq] at hl
      rcases List.mem_cons.1 hl with h | h
      · simp [h]
      · exact ih l h
    · obtain ⟨hd, tl, h1, h2⟩ := Split_cons_ne sep c cs hc
      rw [h2] at hl
      rcases List.mem_cons.1 hl with h | h
      · subst h
        intro hm
        rcases List.mem_cons.1 hm with h' | h'
        · exact hc h'.symm
        · exact ih hd (by rw [h1]; exact List.mem_cons_self _ _) h'
      · exact ih l (by rw [h1]; exact List.mem_cons_of_mem _ h)

theorem joinLines_cons (line : Str) (rest : List Str) (h : rest ≠ []) :
    joinLines (line :: rest) = line ++ '\n' :: joinLines rest := by
  cases rest with
  | nil => exact absurd rfl h
  | cons a t => rfl

theorem joinLines_append : ∀ (A B : List Str), A ≠ [] → B ≠ [] →
    joinLines (A ++ B) = joinLines A ++ '\n' :: joinLines B := by
  intro A
  induction A with
  | nil => intro B h; exact absurd rfl h
  | cons a t ih =>
    intro B _ hB
    cases t with
    | nil =>
      rw [List.singleton_append, joinLines_cons a B hB]
      rfl
    | cons a1 t1 =>
      have h1 : (a1 :: t1) ++ B ≠ [] := by simp
      rw [List.cons_append, joinLines_cons a _ h1, ih B (by simp) hB,
        joinLines_cons a (a1 :: t1) (by simp)]
      simp

theorem Split_joinLines : ∀ K : List Str, K ≠ [] → (∀ L ∈ K, '\n' ∉ L) →
    Split (joinLines K) '\n' = K := by
  intro K
  induction K with
  | nil => intro h; exact absurd rfl h
  | cons a t ih =>
    intro _ hK
    have ha : '\n' ∉ a := hK a (List.mem_cons_self _ _)
    cases t with
    | nil => exact Split_not_mem '\n' a ha
    | cons a1 t1 =>
      rw [joinLines_cons a (a1 :: t1) (by simp), Split_append, Split_not_mem '\n' a ha,
        ih (by simp) (fun L hL => hK L (List.mem_cons_of_mem _ hL))]
      rfl

/-! ## `strings.ReplaceAll` -/

theorem replaceScan_skip (old new : Str) : ∀ (s : Str) (k : Nat),
    replaceScan old new k s = replaceScan old new 0 (s.drop k) := by
  intro s
  induction s with
  | nil => intro k; cases k <;> simp [replaceScan]
  | cons c cs ih =>
    intro k
    cases k with
    | zero => rfl
    | succ k => rw [replaceScan, List.drop_succ_cons, ih k]

theorem ReplaceAll_nil (old new : Str) : ReplaceAll [] old new = [] := rfl

theorem ReplaceAll_match (old new r : Str) (h : old ≠ []) :
    ReplaceAll (old ++ r) old new = new ++ ReplaceAll r old new := by
  cases old with
  | nil => exact absurd rfl h
  | cons a t =>
    have hp : (a :: t).isPrefixOf (a :: (t ++ r)) = true := by
      rw [List.isPrefixOf_iff_prefix]
      exact ⟨r, rfl⟩
    unfold ReplaceAll
    rw [List.cons_append, replaceScan, if_pos hp, replaceScan_skip]
    simp

theorem ReplaceAll_nomatch (old new : Str) (c : Char) (cs : Str)
    (h : ¬ old <+: c :: cs) :
    ReplaceAll (c :: cs) old new = c :: ReplaceAll cs old new := by
  have hp : ¬ old.isPrefixOf (c :: cs) = true := by
    rw [List.isPrefixOf_iff_prefix]
    exact h
  unfold ReplaceAll
  rw [replaceScan, if_neg hp]

/-- Induction along the scan of `ReplaceAll`: the text is empty, starts with an
occurrence of `old`, or starts with a character at which `old` does not occur. -/
theorem replace_induction (old : Str) (hold : old ≠ []) (P : Str → Prop)
    (hnil : P [])
    (hmatch : ∀ r, P r → P (old ++ r))
    (hstep : ∀ c cs, ¬ old <+: c :: cs → P cs → P (c :: cs)) : ∀ s, P s := by
  have aux : ∀ (n : Nat) (s : Str), s.length ≤ n → P s := by
    intro n
    induction n with
    | zero =>
      intro s hs
      have : s = [] := List.length_eq_zero.1 (Nat.le_zero.1 hs)
      rw [this]
      exact hnil
    | succ n ih =>
      intro s hs
      cases s with
      | nil => exact hnil
      | cons c cs =>
        by_cases hp : old <+: c :: cs
        · obtain ⟨r, hr⟩ := hp
          rw [← hr]
          apply hmatch
          apply ih
          have := congrArg List.length hr
          rw [List.length_append, List.length_cons] at this
          have hpos : 0 < old.length := List.length_pos.2 hold
          rw [List.length_cons] at hs
          omega
        · apply hstep c cs hp
          apply ih
          rw [List.length_cons] at hs
          omega
  intro s
  exact aux s.length s (le_refl _)

theorem ReplaceAll_mem (old new : Str) (hold : old ≠ []) (x : Char) :
    ∀ s, x ∈ ReplaceAll s old new → x ∈ s ∨ x ∈ new := by
  apply replace_induction old hold
  · intro h; simp [ReplaceAll_nil] at h
  · intro r ih h
    rw [ReplaceAll_match old new r hold] at h
    rcases List.mem_append.1 h with h1 | h1
    · exact Or.inr h1
    · rcases ih h1 with h2 | h2
      · exact Or.inl (List.mem_append_right _ h2)
      · exact Or.inr h2
  · intro c cs hp ih h
    rw [ReplaceAll_nomatch old new c cs hp] at h
    rcases List.mem_cons.1 h with h1 | h1
    · exact Or.inl (h1 ▸ List.mem_cons_self _ _)
    · rcases ih h1 with h2 | h2
      · exact Or.inl (List.mem_cons_of_mem _ h2)
      · exact Or.inr h2

theorem ReplaceAll_keeps (old new : Str) (hold : old ≠ []) (x : Char) (hx : x ∉ old) :
    ∀ s, x ∈ s → x ∈ ReplaceAll s old new := by
  apply replace_induction old hold
  · intro h; simp at h
  · intro r ih h
    rw [ReplaceAll_match old new r hold]
    rcases List.mem_append.1 h with h1 | h1
    · exact absurd h1 hx
    · exact List.mem_append_right _ (ih h1)
  · intro c cs hp ih h
    rw [ReplaceAll_nomatch old new c cs hp]
    rcases List.mem_cons.1 h with h1 | h1
    · exact h1 ▸ List.mem_cons_self _ _
    · exact List.mem_cons_of_mem _ (ih h1)

theorem ReplaceAll_absent (old new : Str) (hold : old ≠ []) :
    ∀ s, Contains s old = false → ReplaceAll s old new = s := by
  apply replace_induction old hold
  · intro _; rfl
  · intro r _ h
    exfalso
    have : Contains (old ++ r) old = true := (Contains_iff _ _).2 ⟨[], r, rfl⟩
    rw [this] at h
    cases h
  · intro c cs hp ih h
    rw [ReplaceAll_nomatch old new c cs hp]
    have hcs : Contains cs old = false := by
      cases hc : Contains cs old with
      | false => rfl
      | true =>
        obtain ⟨l, r, hlr⟩ := (Contains_iff _ _).1 hc
        have : Contains (c :: cs) old = true :=
          (Contains_iff _ _).2 ⟨c :: l, r, by rw [hlr]; simp⟩
        rw [this] at h
        cases h
    rw [ih hcs]

theorem prefix_of_append_sep (old a b : Str) (sep : Char) (hsep : sep ∉ old)
    (h : old <+: a ++ sep :: b) : old <+: a := by
  have hlen : old.length ≤ a.length := by
    by_contra hlt
    have hlt : a.length < old.length := Nat.lt_of_not_le hlt
    obtain ⟨t, ht⟩ := h
    have h1 : (old ++ t)[a.length]? = some sep := by
      rw [ht, List.getElem?_append_right (le_refl _)]
      simp
    rw [List.getElem?_append_left hlt, List.getElem?_eq_some_iff] at h1
    obtain ⟨hl, hget⟩ := h1
    exact hsep (hget ▸ List.getElem_mem hl)
  exact List.prefix_of_prefix_length_le h (List.prefix_append a (sep :: b)) hlen

theorem ReplaceAll_line_local (old new : Str) (hold : old ≠ []) (sep : Char)
    (hsep : sep ∉ old) (b : Str) :
    ∀ a, ReplaceAll (a ++ sep :: b) old new =
      ReplaceAll a old new ++ sep :: ReplaceAll b old new := by
  apply replace_induction old hold
  · have hp : ¬ old <+: sep :: b := by
      intro hp
      cases old with
      | nil => exact hold rfl
      | cons x t =>
        obtain ⟨r, hr⟩ := hp
        simp only [List.cons_append, List.cons.injEq] at hr
        exact hsep (hr.1 ▸ List.mem_cons_self _ _)
    rw [List.nil_append, ReplaceAll_nomatch old new sep b hp, ReplaceAll_nil]
    rfl
  · intro r ih
    rw [List.append_assoc, ReplaceAll_match old new _ hold, ih,
      ReplaceAll_match old new r hold, List.append_assoc]
  · intro c cs hp ih
    have hp2 : ¬ old <+: c :: (cs ++ sep :: b) := by
      intro h
      exact hp (prefix_of_append_sep old (c :: cs) b sep hsep h)
    rw [List.cons_append, ReplaceAll_nomatch old new c _ hp2, ih,
      ReplaceAll_nomatch old new c cs hp]
    rfl

theorem ReplaceAll_single (a b : Char) : ∀ s : Str,
    ReplaceAll s [a] [b] = s.map (fun c => if c = a then b else c) := by
  intro s
  induction s with
  | nil => rfl
  | cons c cs ih =>
    by_cases hc : c = a
    · subst hc
      have := ReplaceAll_match [c] [b] cs (by simp)
      rw [List.singleton_append] at this
      rw [this, ih]
      simp
    · have hp : ¬ [a] <+: c :: cs := by
        rintro ⟨r, hr⟩
        simp only [List.singleton_append, List.cons.injEq] at hr
        exact hc hr.1.symm
      rw [ReplaceAll_nomatch [a] [b] c cs hp, ih]
      simp [hc]

/-! ## Trimming -/

theorem Contains_singleton (s : Str) (c : Char) : Contains s [c] = true ↔ c ∈ s := by
  rw [Contains_iff]
  constructor
  · rintro ⟨l, r, h⟩
    rw [h]
    simp
  · intro h
    obtain ⟨l, r, hlr⟩ := List.append_of_mem h
    exact ⟨l, r, by rw [hlr]; simp⟩

theorem Contains_false_singleton (s : Str) (c : Char) : Contains s [c] = false ↔ c ∉ s := by
  rw [← Contains_singleton]
  cases Contains s [c] <;> simp

/-- What `TrimRight` cuts off is a suffix made of characters of the cut set. -/
theorem TrimRight_spec (s cutset : Str) :
    ∃ t, s = TrimRight s cutset ++ t ∧ (∀ c ∈ t, c ∈ cutset) ∧
      (∀ c, (TrimRight s cutset).getLast? = some c → c ∉ cutset) := by
  unfold TrimRight
  refine ⟨(s.reverse.takeWhile (fun c => cutset.contains c)).reverse, ?_, ?_, ?_⟩
  · rw [← List.reverse_append, List.takeWhile_append_dropWhile, List.reverse_reverse]
  · intro c hc
    rw [List.mem_reverse] at hc
    have := List.mem_takeWhile_imp hc
    simpa using this
  · intro c hc
    rw [List.getLast?_reverse] at hc
    cases hd : s.reverse.dropWhile (fun c => cutset.contains c) with
    | nil => rw [hd] at hc; simp at hc
    | cons x rest =>
      rw [hd] at hc
      simp only [List.head?_cons, Option.some.injEq] at hc
      subst hc
      have := List.head_dropWhile_not (fun c => cutset.contains c) s.reverse (by rw [hd]; simp)
      simp only [hd, List.head_cons] at this
      simpa using this

theorem TrimRight_of_last (s cutset : Str) (c : Char) (hl : s.getLast? = some c)
    (hc : c ∉ cutset) : TrimRight s cutset = s := by
  unfold TrimRight
  rcases List.eq_nil_or_concat s with h | ⟨L, b, h⟩
  · subst h; simp at hl
  · subst h
    rw [List.concat_eq_append] at hl ⊢
    have hb : b = c := by
      rw [List.getLast?_append] at hl
      simpa using hl
    subst hb
    rw [List.reverse_append, List.reverse_singleton, List.singleton_append,
      List.dropWhile_cons_of_neg (by simpa using hc)]
    simp

theorem TrimRight_snoc_mem (s cutset : Str) (c : Char) (hc : c ∈ cutset) :
    TrimRight (s ++ [c]) cutset = TrimRight s cutset := by
  unfold TrimRight
  rw [List.reverse_append, List.reverse_singleton, List.singleton_append,
    List.dropWhile_cons_of_pos (by simpa using hc)]

theorem TrimSpace_ne_nil_iff (s : Str) :
    TrimSpace s ≠ [] ↔ ∃ c ∈ s, IsSpace c = false := by
  unfold TrimSpace
  constructor
  · intro h
    by_contra hno
    apply h
    have hall : ∀ c ∈ s, IsSpace c = true := by
      intro c hc
      cases hsp : IsSpace c with
      | true => rfl
      | false => exact absurd ⟨c, hc, hsp⟩ hno
    have : s.dropWhile IsSpace = [] := List.dropWhile_eq_nil_iff.2 hall
    rw [this]
    rfl
  · rintro ⟨c, hc, hsp⟩ h
    rw [List.reverse_eq_nil_iff, List.dropWhile_eq_nil_iff] at h
    have hd : ∀ x ∈ s.dropWhile IsSpace, IsSpace x = true := by
      intro x hx
      exact h x (List.mem_reverse.2 hx)
    cases hdw : s.dropWhile IsSpace with
    | nil =>
      have := List.dropWhile_eq_nil_iff.1 hdw c hc
      rw [hsp] at this
      cases this
    | cons x rest =>
      have h1 := List.head_dropWhile_not IsSpace s (by rw [hdw]; simp)
      simp only [hdw, List.head_cons] at h1
      have h2 := hd x (by rw [hdw]; exact List.mem_cons_self _ _)
      rw [h2] at h1
      cases h1

/-! ## The loop and the result of `cleanScript` -/

theorem Split_subset (sep : Char) : ∀ (s : Str), ∀ l ∈ Split s sep, ∀ c ∈ l, c ∈ s := by
  intro s
  induction s with
  | nil =>
    intro l hl c hc
    simp [Split] at hl
    rw [hl] at hc
    exact hc
  | cons x cs ih =>
    intro l hl c hc
    by_cases hx : x = sep
    · subst hx
      rw [Split_cons_eq] at hl
      rcases List.mem_cons.1 hl with h | h
      · rw [h] at hc; simp at hc
      · exact List.mem_cons_of_mem _ (ih l h c hc)
    · obtain ⟨hd, tl, h1, h2⟩ := Split_cons_ne sep x cs hx
      rw [h2] at hl
      rcases List.mem_cons.1 hl with h | h
      · rw [h] at hc
        rcases List.mem_cons.1 hc with h' | h'
        · exact h' ▸ List.mem_cons_self _ _
        · exact List.mem_cons_of_mem _ (ih hd (by rw [h1]; exact List.mem_cons_self _ _) c h')
      · exact List.mem_cons_of_mem _ (ih l (by rw [h1]; exact List.mem_cons_of_mem _ h) c hc)

theorem Split_headD_mem (sep : Char) (s : Str) : (Split s sep).headD [] ∈ Split s sep := by
  cases h : Split s sep with
  | nil => exact absurd h (Split_ne_nil sep s)
  | cons a t => simp

theorem Split_zero (sep : Char) (s : Str) : (Split s sep)[0]? = some ((Split s sep).headD []) := by
  cases h : Split s sep with
  | nil => exact absurd h (Split_ne_nil sep s)
  | cons a t => simp

theorem cleanScriptLoop_eq : ∀ (lines : List Str) (acc : Str),
    cleanScriptLoop lines acc =
      some (acc ++ joinEach ((lines.map stripLine).filter
        (fun line => decide (TrimSpace line ≠ [])))) := by
  intro lines
  induction lines with
  | nil => intro acc; simp [cleanScriptLoop, joinEach]
  | cons line rest ih =>
    intro acc
    have hbody : ∀ head : Str, TrimRight (TrimRight head " ".toList) "\t".toList = stripLine line →
        (if TrimSpace (TrimRight (TrimRight head " ".toList) "\t".toList) = [] then
            cleanScriptLoop rest acc
          else cleanScriptLoop rest
            (acc ++ TrimRight (TrimRight head " ".toList) "\t".toList ++ "\n".toList)) =
        some (acc ++ joinEach (((line :: rest).map stripLine).filter
          (fun line => decide (TrimSpace line ≠ [])))) := by
      intro head hh
      rw [hh]
      by_cases ht : TrimSpace (stripLine line) = []
      · rw [if_pos ht, ih, List.map_cons, List.filter_cons_of_neg (by simp [ht])]
      · rw [if_neg ht, ih, List.map_cons, List.filter_cons_of_pos (by simp [ht])]
        simp [joinEach]
    rw [cleanScriptLoop]
    by_cases hc : Contains line "#".toList = true
    · rw [if_pos hc, Split_zero]
      exact hbody _ rfl
    · rw [if_neg hc]
      have hnm : '#' ∉ line := by
        rw [← Contains_false_singleton]
        exact Bool.eq_false_iff.2 hc
      apply hbody line
      unfold stripLine
      rw [Split_not_mem '#' line hnm]
      rfl

theorem TrimRight_append (x y cutset : Str) (h : TrimRight y cutset ≠ []) :
    TrimRight (x ++ y) cutset = x ++ TrimRight y cutset := by
  unfold TrimRight at h ⊢
  have hne : y.reverse.dropWhile (fun c => cutset.contains c) ≠ [] := by
    intro h0
    rw [h0] at h
    exact h rfl
  rw [List.reverse_append, List.dropWhile_append, if_neg (by simpa using hne)]
  simp

theorem joinLines_ne_nil (K : List Str) (hK : K ≠ []) (hne : ∀ L ∈ K, L ≠ []) :
    joinLines K ≠ [] := by
  cases K with
  | nil => exact absurd rfl hK
  | cons a t =>
    have ha := hne a (List.mem_cons_self _ _)
    cases t with
    | nil => exact ha
    | cons a1 t1 =>
      rw [joinLines_cons a _ (by simp)]
      simp [ha]

theorem TrimRight_joinEach : ∀ K : List Str, (∀ L ∈ K, L ≠ [] ∧ '\n' ∉ L) →
    TrimRight (joinEach K) "\n".toList = joinLines K := by
  intro K
  induction K with
  | nil => intro _; rfl
  | cons a t ih =>
    intro h
    obtain ⟨hane, han⟩ := h a (List.mem_cons_self _ _)
    have ht : ∀ L ∈ t, L ≠ [] ∧ '\n' ∉ L := fun L hL => h L (List.mem_cons_of_mem _ hL)
    cases t with
    | nil =>
      have hlast : ∃ c, a.getLast? = some c ∧ c ∉ "\n".toList := by
        refine ⟨a.getLast hane, List.getLast?_eq_getLast _ hane, ?_⟩
        intro hc
        have : a.getLast hane = '\n' := by simpa using hc
        exact han (this ▸ List.getLast_mem hane)
      obtain ⟨c, hc1, hc2⟩ := hlast
      have : joinEach [a] = a ++ ['\n'] := rfl
      rw [this, TrimRight_snoc_mem a "\n".toList '\n' (by simp),
        TrimRight_of_last a _ c hc1 hc2]
      rfl
    | cons a1 t1 =>
      have hrec := ih ht
      have hne : joinLines (a1 :: t1) ≠ [] :=
        joinLines_ne_nil _ (by simp) (fun L hL => (ht L hL).1)
      have : joinEach (a :: a1 :: t1) = (a ++ ['\n']) ++ joinEach (a1 :: t1) := by
        simp [joinEach]
      rw [this, TrimRight_append _ _ _ (by rw [hrec]; exact hne), hrec,
        joinLines_cons a _ (by simp)]
      simp

theorem ReplaceAll_joinLines (old new : Str) (hold : old ≠ []) (hsep : '\n' ∉ old) :
    ∀ K : List Str, ReplaceAll (joinLines K) old new =
      joinLines (K.map (fun L => ReplaceAll L old new)) := by
  intro K
  induction K with
  | nil => rfl
  | cons a t ih =>
    cases t with
    | nil => rfl
    | cons a1 t1 =>
      rw [joinLines_cons a _ (by simp), ReplaceAll_line_local old new hold '\n' hsep, ih]
      exact (joinLines_cons (ReplaceAll a old new)
        (List.map (fun L => ReplaceAll L old new) (a1 :: t1)) (by simp)).symm

theorem TrimRight_subset (s cutset : Str) : ∀ c ∈ TrimRight s cutset, c ∈ s := by
  intro c hc
  obtain ⟨t, ht, _⟩ := TrimRight_spec s cutset
  rw [ht]
  exact List.mem_append_left _ hc

/-- The kept lines hold no `#` and no newline, and each has a character that
is not white space. -/
theorem keptLines_spec (script : Str) : ∀ L ∈ keptLines script,
    '#' ∉ L ∧ '\n' ∉ L ∧ ∃ c ∈ L, IsSpace c = false := by
  intro L hL
  unfold keptLines at hL
  rw [List.mem_filter, List.mem_map] at hL
  obtain ⟨⟨line, hline, hstrip⟩, hsp⟩ := hL
  have hsub : ∀ c ∈ L, c ∈ (Split line '#').headD [] := by
    intro c hc
    rw [← hstrip] at hc
    exact TrimRight_subset _ _ c (TrimRight_subset _ _ c hc)
  refine ⟨?_, ?_, ?_⟩
  · intro h
    exact Split_mem '#' line _ (Split_headD_mem '#' line) (hsub _ h)
  · intro h
    exact Split_mem '\n' script line hline
      (Split_subset '#' line _ (Split_headD_mem '#' line) _ (hsub _ h))
  · exact (TrimSpace_ne_nil_iff L).1 (by simpa using hsp)

theorem normalizeLine_mem (L : Str) (x : Char) (hx : x ∈ normalizeLine L) :
    x ∈ L ∨ x = '\t' ∨ x = Char.ofNat 34 := by
  unfold normalizeLine at hx
  rw [ReplaceAll_single, List.mem_map] at hx
  obtain ⟨y, hy, hyx⟩ := hx
  by_cases hq : y = Char.ofNat 39
  · rw [if_pos hq] at hyx
    exact Or.inr (Or.inr hyx.symm)
  · rw [if_neg hq] at hyx
    subst hyx
    rcases ReplaceAll_mem "    ".toList "\t".toList (by decide) y L hy with h | h
    · exact Or.inl h
    · exact Or.inr (Or.inl (by simpa using h))

theorem normalizeLine_no_quote (L : Str) : Char.ofNat 39 ∉ normalizeLine L := by
  unfold normalizeLine
  rw [ReplaceAll_single, List.mem_map]
  rintro ⟨y, _, hyx⟩
  by_cases hq : y = Char.ofNat 39
  · rw [if_pos hq] at hyx
    revert hyx
    decide
  · rw [if_neg hq] at hyx
    exact hq hyx

theorem normalizeLine_nonspace (L : Str) (h : ∃ c ∈ L, IsSpace c = false) :
    ∃ c ∈ normalizeLine L, IsSpace c = false := by
  obtain ⟨c, hc, hsp⟩ := h
  have hc4 : c ∉ "    ".toList := by
    intro hmem
    have : c = ' ' := by simpa using hmem
    rw [this] at hsp
    revert hsp
    decide
  have h1 := ReplaceAll_keeps "    ".toList "\t".toList (by decide) c hc4 L hc
  unfold normalizeLine
  rw [ReplaceAll_single]
  by_cases hq : c = Char.ofNat 39
  · refine ⟨Char.ofNat 34, ?_, by decide⟩
    rw [List.mem_map]
    exact ⟨c, h1, by rw [if_pos hq]⟩
  · refine ⟨c, ?_, hsp⟩
    rw [List.mem_map]
    exact ⟨c, h1, by rw [if_neg hq]⟩

/-- The result of `cleanScript`: the kept lines, each normalized, joined by
newlines. -/
theorem cleanScript_eq (script : Str) :
    cleanScript script = some (joinLines ((keptLines script).map normalizeLine)) := by
  unfold cleanScript
  rw [cleanScriptLoop_eq]
  simp only [Option.bind_eq_bind, Option.some_bind, List.nil_append]
  have hK : ∀ L ∈ keptLines script, L ≠ [] ∧ '\n' ∉ L := by
    intro L hL
    obtain ⟨_, hn, c, hc, _⟩ := keptLines_spec script L hL
    exact ⟨List.ne_nil_of_mem hc, hn⟩
  have h1 := TrimRight_joinEach (keptLines script) hK
  unfold keptLines at h1
  rw [h1]
  have h2 := ReplaceAll_joinLines "    ".toList "\t".toList (by decide) (by decide)
    (keptLines script)
  have h3 := ReplaceAll_joinLines [Char.ofNat 39] [Char.ofNat 34] (by decide) (by decide)
    ((keptLines script).map (fun L => ReplaceAll L "    ".toList "\t".toList))
  unfold keptLines at h2 h3
  rw [h2, h3, List.map_map]
  rfl

/-! ## Line-locality and postcondition of `cleanScript` -/

theorem keptLines_append (a b : Str) :
    keptLines (a ++ '\n' :: b) = keptLines a ++ keptLines b := by
  unfold keptLines
  rw [Split_append, List.map_append, List.filter_append]

theorem normalized_ne_nil (script : Str) :
    ∀ L ∈ (keptLines script).map normalizeLine, L ≠ [] := by
  intro L hL
  rw [List.mem_map] at hL
  obtain ⟨L0, hL0, hN⟩ := hL
  obtain ⟨_, _, hsp⟩ := keptLines_spec script L0 hL0
  obtain ⟨c, hc, _⟩ := normalizeLine_nonspace L0 hsp
  rw [← hN]
  exact List.ne_nil_of_mem hc

theorem cleaned_eq_nil_iff (script : Str) :
    joinLines ((keptLines script).map normalizeLine) = [] ↔ keptLines script = [] := by
  constructor
  · intro h
    by_contra hne
    exact joinLines_ne_nil _ (by simpa using hne) (normalized_ne_nil script) h
  · intro h
    rw [h]
    rfl

/-- C19: `cleanScript` is line-local.  For all `a` and `b` the three calls
return, and the result on `a`, newline, `b` is the two results joined by a
newline when both are non-empty, and the other one when one of them is empty. -/
theorem cleanScript_line_local (a b : Str) :
    ∃ ca cb cab, cleanScript a = some ca ∧ cleanScript b = some cb ∧
      cleanScript (a ++ "\n".toList ++ b) = some cab ∧
      (ca ≠ [] → cb ≠ [] → cab = ca ++ "\n".toList ++ cb) ∧
      (cb = [] → cab = ca) ∧ (ca = [] → cab = cb) := by
  have hab : a ++ "\n".toList ++ b = a ++ '\n' :: b := by simp
  refine ⟨_, _, _, cleanScript_eq a, cleanScript_eq b, cleanScript_eq _, ?_, ?_, ?_⟩
  · intro ha hb
    have hKa : keptLines a ≠ [] := fun h => ha ((cleaned_eq_nil_iff a).2 h)
    have hKb : keptLines b ≠ [] := fun h => hb ((cleaned_eq_nil_iff b).2 h)
    rw [hab, keptLines_append, List.map_append,
      joinLines_append _ _ (by simpa using hKa) (by simpa using hKb)]
    simp
  · intro hb
    rw [hab, keptLines_append, (cleaned_eq_nil_iff b).1 hb, List.append_nil]
  · intro ha
    rw [hab, keptLines_append, (cleaned_eq_nil_iff a).1 ha, List.nil_append]

/-- Witness of C19: a line with trailing spaces followed by a comment line. -/
theorem cleanScript_line_local_witness :
    ∃ ca cb cab, cleanScript "ARTIST  ".toList = some ca ∧ cleanScript "# note".toList = some cb ∧
      cleanScript ("ARTIST  ".toList ++ "\n".toList ++ "# note".toList) = some cab ∧
      (ca ≠ [] → cb ≠ [] → cab = ca ++ "\n".toList ++ cb) ∧
      (cb = [] → cab = ca) ∧ (ca = [] → cab = cb) :=
  cleanScript_line_local "ARTIST  ".toList "# note".toList

theorem Contains_cons (sub : Str) (c : Char) (Y : Str) (h : ¬ sub <+: c :: Y) :
    Contains (c :: Y) sub = Contains Y sub := by
  have hp : ¬ sub.isPrefixOf (c :: Y) = true := by
    rw [List.isPrefixOf_iff_prefix]
    exact h
  unfold Contains
  rw [Index, if_neg hp]
  cases Index Y sub <;> rfl

theorem fourSpaces_head (s X : Str)
    (h : ReplaceAll s "    ".toList "\t".toList = ' ' :: X) :
    ∃ s1, s = ' ' :: s1 ∧ ReplaceAll s1 "    ".toList "\t".toList = X := by
  cases s with
  | nil => rw [ReplaceAll_nil] at h; cases h
  | cons c cs =>
    by_cases hp : "    ".toList <+: c :: cs
    · obtain ⟨r, hr⟩ := hp
      rw [← hr, ReplaceAll_match _ _ r (by decide)] at h
      simp at h
    · rw [ReplaceAll_nomatch _ _ c cs hp] at h
      simp only [List.cons.injEq] at h
      exact ⟨cs, by rw [h.1], h.2⟩

/-- After `ReplaceAll(s, "    ", "\t")` no run of four spaces is left. -/
theorem fourSpaces_gone : ∀ s : Str,
    Contains (ReplaceAll s "    ".toList "\t".toList) "    ".toList = false := by
  apply replace_induction "    ".toList (by decide)
  · rfl
  · intro r ih
    rw [ReplaceAll_match _ _ r (by decide)]
    have hp : ¬ "    ".toList <+: '\t' :: ReplaceAll r "    ".toList "\t".toList := by
      rintro ⟨t, ht⟩
      simp at ht
    have : "\t".toList ++ ReplaceAll r "    ".toList "\t".toList =
        '\t' :: ReplaceAll r "    ".toList "\t".toList := rfl
    rw [this, Contains_cons _ _ _ hp, ih]
  · intro c cs hp ih
    rw [ReplaceAll_nomatch _ _ c cs hp]
    have hp2 : ¬ "    ".toList <+: c :: ReplaceAll cs "    ".toList "\t".toList := by
      rintro ⟨t, ht⟩
      have ht2 : c :: ReplaceAll cs "    ".toList "\t".toList = ' ' :: ' ' :: ' ' :: ' ' :: t := by
        rw [← ht]; rfl
      simp only [List.cons.injEq] at ht2
      obtain ⟨hc, hrest⟩ := ht2
      obtain ⟨s1, hs1, h1⟩ := fourSpaces_head cs _ hrest
      obtain ⟨s2, hs2, h2⟩ := fourSpaces_head s1 _ h1
      obtain ⟨s3, hs3, _⟩ := fourSpaces_head s2 _ h2
      apply hp
      rw [hc, hs1, hs2, hs3]
      exact ⟨s3, rfl⟩
    rw [Contains_cons _ _ _ hp2, ih]

theorem map_eq_spaces (f : Char → Char) (hf : ∀ y, f y = ' ' → y = ' ') :
    ∀ (u t : Str), (∀ c ∈ u, c = ' ') → t.map f = u → t = u := by
  intro u
  induction u with
  | nil => intro t _ h; simpa using h
  | cons a u ih =>
    intro t hu h
    cases t with
    | nil => simp at h
    | cons y t =>
      simp only [List.map_cons, List.cons.injEq] at h
      have ha : a = ' ' := hu a (List.mem_cons_self _ _)
      have hy : y = ' ' := hf y (by rw [h.1, ha])
      rw [ih t (fun c hc => hu c (List.mem_cons_of_mem _ hc)) h.2, hy, ha]

theorem fourSpaces_map (f : Char → Char) (hf : ∀ y, f y = ' ' → y = ' ') (s : Str)
    (h : Contains s "    ".toList = false) : Contains (s.map f) "    ".toList = false := by
  cases hc : Contains (s.map f) "    ".toList with
  | false => rfl
  | true =>
    exfalso
    obtain ⟨l, r, hlr⟩ := (Contains_iff _ _).1 hc
    rw [List.map_eq_append_iff] at hlr
    obtain ⟨s1, s2, hs, h1, _⟩ := hlr
    rw [List.map_eq_append_iff] at h1
    obtain ⟨s11, s12, hs1, _, h12⟩ := h1
    have h4 : s12 = "    ".toList :=
      map_eq_spaces f hf "    ".toList s12 (by decide) h12
    have : Contains s "    ".toList = true :=
      (Contains_iff _ _).2 ⟨s11, s2, by rw [hs, hs1, h4]⟩
    rw [this] at h
    cases h

theorem joinLines_mem : ∀ (K : List Str) (x : Char), x ∈ joinLines K →
    x = '\n' ∨ ∃ L ∈ K, x ∈ L := by
  intro K
  induction K with
  | nil => intro x h; simp [joinLines] at h
  | cons a t ih =>
    intro x h
    cases t with
    | nil => exact Or.inr ⟨a, List.mem_cons_self _ _, h⟩
    | cons a1 t1 =>
      rw [joinLines_cons a _ (by simp)] at h
      rcases List.mem_append.1 h with h1 | h1
      · exact Or.inr ⟨a, List.mem_cons_self _ _, h1⟩
      · rcases List.mem_cons.1 h1 with h2 | h2
        · exact Or.inl h2
        · rcases ih x h2 with h3 | ⟨L, hL, hx⟩
          · exact Or.inl h3
          · exact Or.inr ⟨L, List.mem_cons_of_mem _ hL, hx⟩

theorem joinLines_getLast : ∀ (K : List Str), K ≠ [] → (∀ L ∈ K, L ≠ []) →
    ∃ L ∈ K, (joinLines K).getLast? = L.getLast? := by
  intro K
  induction K with
  | nil => intro h; exact absurd rfl h
  | cons a t ih =>
    intro _ hne
    cases t with
    | nil => exact ⟨a, List.mem_cons_self _ _, rfl⟩
    | cons a1 t1 =>
      obtain ⟨L, hL, hlast⟩ := ih (by simp) (fun L hL => hne L (List.mem_cons_of_mem _ hL))
      refine ⟨L, List.mem_cons_of_mem _ hL, ?_⟩
      have hjl : joinLines (a1 :: t1) ≠ [] :=
        joinLines_ne_nil _ (by simp) (fun L hL => hne L (List.mem_cons_of_mem _ hL))
      have : a ++ '\n' :: joinLines (a1 :: t1) = (a ++ ['\n']) ++ joinLines (a1 :: t1) := by simp
      rw [joinLines_cons a _ (by simp), this, List.getLast?_append_of_ne_nil _ hjl, hlast]

theorem normalized_no_newline (script : Str) :
    ∀ L ∈ (keptLines script).map normalizeLine, '\n' ∉ L := by
  intro L hL hn
  rw [List.mem_map] at hL
  obtain ⟨L0, hL0, hN⟩ := hL
  rw [← hN] at hn
  rcases normalizeLine_mem L0 '\n' hn with h | h | h
  · exact (keptLines_spec script L0 hL0).2.1 h
  · exact absurd h (by decide)
  · exact absurd h (by decide)

/-- C15: the normalization postcondition.  `cleanScript` returns a text without
`#`, without single quote and without a run of four spaces, which does not end
with a newline and, when non-empty, has no empty or white-space-only line. -/
theorem cleanScript_postcondition (x : Str) :
    ∃ r, cleanScript x = some r ∧ '#' ∉ r ∧ Char.ofNat 39 ∉ r ∧
      Contains r "    ".toList = false ∧ r.getLast? ≠ some '\n' ∧
      (r ≠ [] → ∀ line ∈ Split r '\n', TrimSpace line ≠ []) := by
  refine ⟨_, cleanScript_eq x, ?_, ?_, ?_, ?_, ?_⟩
  · intro h
    rcases joinLines_mem _ _ h with h1 | ⟨L, hL, hx⟩
    · exact absurd h1 (by decide)
    · rw [List.mem_map] at hL
      obtain ⟨L0, hL0, hN⟩ := hL
      rw [← hN] at hx
      rcases normalizeLine_mem L0 '#' hx with h2 | h2 | h2
      · exact (keptLines_spec x L0 hL0).1 h2
      · exact absurd h2 (by decide)
      · exact absurd h2 (by decide)
  · intro h
    rcases joinLines_mem _ _ h with h1 | ⟨L, hL, hx⟩
    · exact absurd h1 (by decide)
    · rw [List.mem_map] at hL
      obtain ⟨L0, _, hN⟩ := hL
      rw [← hN] at hx
      exact normalizeLine_no_quote L0 hx
  · have h2 := ReplaceAll_joinLines "    ".toList "\t".toList (by decide) (by decide)
      (keptLines x)
    have h3 := ReplaceAll_joinLines [Char.ofNat 39] [Char.ofNat 34] (by decide) (by decide)
      ((keptLines x).map (fun L => ReplaceAll L "    ".toList "\t".toList))
    rw [List.map_map] at h3
    have hN : joinLines ((keptLines x).map normalizeLine) =
        ReplaceAll (ReplaceAll (joinLines (keptLines x)) "    ".toList "\t".toList)
          [Char.ofNat 39] [Char.ofNat 34] := by
      rw [h2, h3]
      rfl
    rw [hN, ReplaceAll_single]
    apply fourSpaces_map
    · intro y hy
      by_cases hq : y = Char.ofNat 39
      · rw [if_pos hq] at hy
        exact absurd hy (by decide)
      · rw [if_neg hq] at hy
        exact hy
    · exact fourSpaces_gone _
  · intro h
    by_cases hK : keptLines x = []
    · rw [hK] at h
      simp [joinLines] at h
    · obtain ⟨L, hL, hlast⟩ := joinLines_getLast ((keptLines x).map normalizeLine)
        (by simpa using hK) (normalized_ne_nil x)
      rw [hlast] at h
      exact normalized_no_newline x L hL (List.mem_of_getLast?_eq_some h)
  · intro hr line hline
    have hK : keptLines x ≠ [] := fun h => hr ((cleaned_eq_nil_iff x).2 h)
    rw [Split_joinLines _ (by simpa using hK) (normalized_no_newline x), List.mem_map] at hline
    obtain ⟨L0, hL0, hN⟩ := hline
    rw [← hN, TrimSpace_ne_nil_iff]
    exact normalizeLine_nonspace L0 (keptLines_spec x L0 hL0).2.2

/-! ## Indentation units -/

/-- One line without newline and `#`, not ending in a space or a tab and not
white space only, is cleaned to its normalized form. -/
theorem cleanScript_single_line (line : Str) (hnl : '\n' ∉ line) (hhash : '#' ∉ line)
    (hlast : ∃ c, line.getLast? = some c ∧ c ≠ ' ' ∧ c ≠ '\t')
    (hsp : ∃ c ∈ line, IsSpace c = false) :
    cleanScript line = some (normalizeLine line) := by
  obtain ⟨c, hc, hc1, hc2⟩ := hlast
  have hstrip : stripLine line = line := by
    unfold stripLine
    rw [Split_not_mem '#' line hhash]
    show TrimRight (TrimRight line " ".toList) "\t".toList = line
    rw [TrimRight_of_last line " ".toList c hc (by simpa using hc1),
      TrimRight_of_last line "\t".toList c hc (by simpa using hc2)]
  have hkept : keptLines line = [line] := by
    unfold keptLines
    rw [Split_not_mem '\n' line hnl, List.map_cons, List.map_nil, hstrip,
      List.filter_cons_of_pos (by simpa using (TrimSpace_ne_nil_iff line).2 hsp)]
    rfl
  rw [cleanScript_eq, hkept]
  rfl

theorem fourSpaces_replicate (t : Str) : ∀ k : Nat,
    ReplaceAll (List.replicate (4 * k) ' ' ++ t) "    ".toList "\t".toList =
      List.replicate k '\t' ++ ReplaceAll t "    ".toList "\t".toList := by
  intro k
  induction k with
  | zero => rfl
  | succ k ih =>
    have h : List.replicate (4 * (k + 1)) ' ' ++ t =
        "    ".toList ++ (List.replicate (4 * k) ' ' ++ t) := by
      have : 4 * (k + 1) = 4 * k + 4 := by ring
      rw [this]
      simp [List.replicate_succ]
    rw [h, ReplaceAll_match _ _ _ (by decide), ih, List.replicate_succ]
    rfl

theorem Contains_tabs (t : Str) (sub : Str) (c0 : Char) (rest : Str) (hsub : sub = c0 :: rest)
    (hc0 : c0 ≠ '\t') : ∀ k : Nat,
    Contains (List.replicate k '\t' ++ t) sub = Contains t sub := by
  intro k
  induction k with
  | zero => rfl
  | succ k ih =>
    have hp : ¬ sub <+: '\t' :: (List.replicate k '\t' ++ t) := by
      rintro ⟨r, hr⟩
      rw [hsub] at hr
      simp only [List.cons_append, List.cons.injEq] at hr
      exact hc0 hr.1
    rw [List.replicate_succ, List.cons_append, Contains_cons _ _ _ hp, ih]

theorem getLevel_tabs (t : Str) (ht : ∀ c, t.head? = some c → c ≠ '\t') : ∀ k : Nat,
    getLevel (List.replicate k '\t' ++ t) = k := by
  intro k
  induction k with
  | zero =>
    cases t with
    | nil => rfl
    | cons c cs =>
      have := ht c rfl
      simp [getLevel, this]
  | succ k ih =>
    rw [List.replicate_succ, List.cons_append, getLevel, if_pos rfl, ih]

/-- C12, as stated, fails: the text of one carriage return meets every
condition of the claim, and `cleanScript` returns the empty text for it, with
or without indentation. -/
theorem indentation_unit_counterexample :
    ("\r".toList ≠ [] ∧ "\r".toList.head? = some '\r' ∧ "\r".toList.getLast? = some '\r' ∧
      '\n' ∉ "\r".toList ∧ '#' ∉ "\r".toList ∧ Char.ofNat 39 ∉ "\r".toList ∧
      Contains "\r".toList "    ".toList = false) ∧
    cleanScript "\r".toList = some [] ∧
    cleanScript (List.replicate 4 ' ' ++ "\r".toList) = some [] ∧
    cleanScript (List.replicate 1 '\t' ++ "\r".toList) = some [] := by
  decide

/-- C12 (amended): four spaces and one tab are the same indentation unit.  For
a non-empty text `t` that does not begin or end with a space or a tab, holds no
newline, `#`, single quote or run of four spaces, and is not white space only,
`cleanScript` of `4 * k` spaces and `t` and of `k` tabs and `t` are both `k`
tabs and `t`, a line of level `k`. -/
theorem indentation_unit (k : Nat) (t : Str)
    (hfirst : ∃ c, t.head? = some c ∧ c ≠ ' ' ∧ c ≠ '\t')
    (hlast : ∃ c, t.getLast? = some c ∧ c ≠ ' ' ∧ c ≠ '\t')
    (hnl : '\n' ∉ t) (hhash : '#' ∉ t) (hq : Char.ofNat 39 ∉ t)
    (h4 : Contains t "    ".toList = false)
    (hsp : ∃ c ∈ t, IsSpace c = false) :
    cleanScript (List.replicate (4 * k) ' ' ++ t) = some (List.replicate k '\t' ++ t) ∧
    cleanScript (List.replicate k '\t' ++ t) = some (List.replicate k '\t' ++ t) ∧
    getLevel (List.replicate k '\t' ++ t) = k := by
  obtain ⟨cl, hcl, hcl1, hcl2⟩ := hlast
  obtain ⟨cf, hcf, _, hcf2⟩ := hfirst
  have hne : t ≠ [] := by
    intro h
    rw [h] at hcl
    cases hcl
  have hsp2 : ∀ (p : Str), ∃ c ∈ p ++ t, IsSpace c = false := by
    intro p
    obtain ⟨c, hc, hs⟩ := hsp
    exact ⟨c, List.mem_append_right _ hc, hs⟩
  have hlast2 : ∀ (p : Str), ∃ c, (p ++ t).getLast? = some c ∧ c ≠ ' ' ∧ c ≠ '\t' := by
    intro p
    exact ⟨cl, by rw [List.getLast?_append_of_ne_nil _ hne, hcl], hcl1, hcl2⟩
  have hmem : ∀ (n : Nat) (a x : Char), x ≠ a → x ∉ t → x ∉ List.replicate n a ++ t := by
    intro n a x hxa hxt hx
    rcases List.mem_append.1 hx with h | h
    · exact hxa (List.eq_of_mem_replicate h)
    · exact hxt h
  have hquote : ∀ s : Str, Char.ofNat 39 ∉ s →
      ReplaceAll s [Char.ofNat 39] [Char.ofNat 34] = s := by
    intro s hs
    exact ReplaceAll_absent _ _ (by decide) s ((Contains_false_singleton s _).2 hs)
  have htabs4 : Contains (List.replicate k '\t' ++ t) "    ".toList = false := by
    rw [Contains_tabs t "    ".toList ' ' "   ".toList rfl (by decide) k]
    exact h4
  refine ⟨?_, ?_, ?_⟩
  · rw [cleanScript_single_line _ (hmem _ ' ' '\n' (by decide) hnl)
      (hmem _ ' ' '#' (by decide) hhash) (hlast2 _) (hsp2 _)]
    unfold normalizeLine
    rw [fourSpaces_replicate, ReplaceAll_absent _ _ (by decide) t h4,
      hquote _ (hmem _ '\t' _ (by decide) hq)]
  · rw [cleanScript_single_line _ (hmem _ '\t' '\n' (by decide) hnl)
      (hmem _ '\t' '#' (by decide) hhash) (hlast2 _) (hsp2 _)]
    unfold normalizeLine
    rw [ReplaceAll_absent _ _ (by decide) _ htabs4, hquote _ (hmem _ '\t' _ (by decide) hq)]
  · apply getLevel_tabs
    intro c hc
    rw [hcf] at hc
    cases hc
    exact hcf2

/-- Witness of C12 (amended): two levels of indentation in front of `YEAR`. -/
theorem indentation_unit_witness :
    cleanScript (List.replicate (4 * 2) ' ' ++ "YEAR".toList) =
      some (List.replicate 2 '\t' ++ "YEAR".toList) ∧
    cleanScript (List.replicate 2 '\t' ++ "YEAR".toList) =
      some (List.replicate 2 '\t' ++ "YEAR".toList) ∧
    getLevel (List.replicate 2 '\t' ++ "YEAR".toList) = 2 :=
  indentation_unit 2 "YEAR".toList ⟨'Y', rfl, by decide, by decide⟩
    ⟨'R', rfl, by decide, by decide⟩ (by decide) (by decide) (by decide) (by decide)
    ⟨'Y', by decide, by decide⟩

/-! ## Totality -/

theorem removeQuotes_isSome (s : Str) : ∃ r, removeQuotes s = some r := by
  by_cases hq : ∃ mid, s = [Char.ofNat 34] ++ mid ++ [Char.ofNat 34]
  · obtain ⟨mid, hmid⟩ := hq
    exact ⟨mid, by rw [hmid, removeQuotes_quoted]⟩
  · exact ⟨s, removeQuotes_plain s (fun mid hmid => hq ⟨mid, hmid⟩)⟩

theorem evaluateCondition_isSome (E : Env) (condition : Str) (m : Metadata) :
    ∃ b, evaluateCondition E condition m = some b := by
  unfold evaluateCondition
  by_cases h1 : Contains condition " is number".toList = true
  · obtain ⟨left, right, hsplit, _, _⟩ := SplitN_two condition " is number".toList h1
    rw [if_pos h1, hsplit]
    by_cases hv : getTag E (TrimSpace left) m = []
    · exact ⟨false, by simp [hv]⟩
    · exact ⟨(Atoi (getTag E (TrimSpace left) m)).isSome, by simp [hv]⟩
  · rw [if_neg h1]
    by_cases h2 : Contains condition "!=".toList = true
    · obtain ⟨left, right, hsplit, _, _⟩ := SplitN_two condition "!=".toList h2
      obtain ⟨r, hr⟩ := removeQuotes_isSome (TrimSpace right)
      rw [if_pos h2, hsplit]
      exact ⟨decide (getTag E (TrimSpace left) m ≠ r), by simp [hr]⟩
    · rw [if_neg h2]
      by_cases h3 : Contains condition "==".toList = true
      · obtain ⟨left, right, hsplit, _, _⟩ := SplitN_two condition "==".toList h3
        obtain ⟨r, hr⟩ := removeQuotes_isSome (TrimSpace right)
        rw [if_pos h3, hsplit]
        exact ⟨decide (getTag E (TrimSpace left) m = r), by simp [hr]⟩
      · rw [if_neg h3]
        exact ⟨_, rfl⟩

theorem slice_inner (s : Str) (h : s.length > 2) :
    ∃ r, slice s 1 (s.length - 1) = some r := by
  unfold slice
  have : 1 ≤ s.length - 1 ∧ s.length - 1 ≤ s.length := by omega
  rw [if_pos this]
  exact ⟨_, rfl⟩

theorem ifGrants_isSome (E : Env) (m : Metadata) (line : Str) :
    ∃ b, ifGrants E m line = some b := by
  unfold ifGrants
  dsimp only
  generalize TrimSpace (TrimPrefix line "IF".toList) = condition
  obtain ⟨r, hr, hiff⟩ := firstLastAre_isSome (decide (condition.length > 2)) condition '(' ')'
    (by
      intro h hnil
      rw [hnil] at h
      simp at h)
  rw [hr]
  cases r with
  | false => exact ⟨_, rfl⟩
  | true =>
    have hlen : condition.length > 2 := by simpa using (hiff.1 rfl).1
    obtain ⟨inner, hinner⟩ := slice_inner condition hlen
    obtain ⟨b, hb⟩ := evaluateCondition_isSome E inner m
    exact ⟨b, by simp [hinner, hb]⟩

theorem Split_one (sep : Char) (cs : Str) :
    ∃ part, (Split (sep :: cs) sep)[1]? = some part := by
  rw [Split_cons_eq]
  cases h : Split cs sep with
  | nil => exact absurd h (Split_ne_nil sep cs)
  | cons a t => exact ⟨a, by simp⟩

theorem getPathStep_isSome (E : Env) (m : Metadata) (level : Nat) (cur line : Str) :
    ∃ fl, getPathStep E m level cur line = some fl := by
  unfold getPathStep
  dsimp only
  generalize TrimLeft line "\t".toList = t
  by_cases hle : getLevel line ≤ level
  · rw [if_pos hle]
    by_cases hif : HasPrefix t "IF".toList = true
    · rw [if_pos hif]
      obtain ⟨b, hb⟩ := ifGrants_isSome E m t
      rw [hb]
      cases b
      · exact ⟨_, rfl⟩
      · exact ⟨_, rfl⟩
    · rw [if_neg hif]
      by_cases hadd : HasPrefix t "ADD FOLDER".toList = true
      · rw [if_pos hadd]
        exact ⟨_, rfl⟩
      · rw [if_neg hadd]
        by_cases hq : HasPrefix t [Char.ofNat 34] = true
        · rw [if_pos hq]
          have ht : ∃ cs, t = Char.ofNat 34 :: cs := by
            unfold HasPrefix at hq
            rw [List.isPrefixOf_iff_prefix] at hq
            obtain ⟨r, hr⟩ := hq
            exact ⟨r, hr.symm⟩
          obtain ⟨cs, hcs⟩ := ht
          obtain ⟨part, hpart⟩ := Split_one (Char.ofNat 34) cs
          rw [hcs, hpart]
          simp only [Option.bind_eq_bind, Option.some_bind, Split_zero]
          exact ⟨_, rfl⟩
        · rw [if_neg hq]
          by_cases hstop : HasPrefix t "STOP".toList = true
          · rw [if_pos hstop]
            exact ⟨_, rfl⟩
          · rw [if_neg hstop]
            exact ⟨_, rfl⟩
  · rw [if_neg hle]
    exact ⟨_, rfl⟩

theorem getPathLoop_isSome (E : Env) (m : Metadata) : ∀ (instructions : List Str)
    (level : Nat) (cur : Str), ∃ r, getPathLoop E m level cur instructions = some r := by
  intro instructions
  induction instructions with
  | nil => intro level cur; exact ⟨cur, rfl⟩
  | cons line rest ih =>
    intro level cur
    obtain ⟨fl, hfl⟩ := getPathStep_isSome E m level cur line
    rw [getPathLoop, hfl]
    cases fl with
    | ret v => exact ⟨v, rfl⟩
    | next l1 r1 => exact ih l1 r1

/-- C20: totality of the interpreter.  `cleanScript`, `evaluateCondition` and
`getPath` return a value for every input (no index or slice is out of range;
`getLevel` is a total function that counts at most the length of the line), and
each index and slice named by the claim is in range. -/
theorem interpreter_total (E : Env) (script condition line : Str) (instructions : List Str)
    (m : Metadata) :
    (∃ r, cleanScript script = some r) ∧
    getLevel line ≤ line.length ∧
    (∃ b, evaluateCondition E condition m = some b) ∧
    (∃ r, getPath E instructions m = some r) ∧
    (∃ part, (Split line '#')[0]? = some part) ∧
    (HasPrefix line [Char.ofNat 34] = true →
      ∃ part, (Split line (Char.ofNat 34))[1]? = some part) ∧
    (condition.length > 2 →
      (∃ c, condition[0]? = some c) ∧ (∃ c, condition[condition.length - 1]? = some c) ∧
      ∃ inner, slice condition 1 (condition.length - 1) = some inner) ∧
    (∀ sep : Str, Contains condition sep = true →
      ∃ part, (SplitN condition sep 2)[1]? = some part) := by
  refine ⟨⟨_, cleanScript_eq script⟩, ?_, evaluateCondition_isSome E condition m,
    getPathLoop_isSome E m instructions 0 [], ⟨_, Split_zero '#' line⟩, ?_, ?_, ?_⟩
  · induction line with
    | nil => simp [getLevel]
    | cons c cs ih =>
      rw [getLevel]
      by_cases hc : c = '\t'
      · rw [if_pos hc, List.length_cons]
        omega
      · rw [if_neg hc]
        omega
  · intro hq
    unfold HasPrefix at hq
    rw [List.isPrefixOf_iff_prefix] at hq
    obtain ⟨r, hr⟩ := hq
    rw [← hr]
    exact Split_one (Char.ofNat 34) r
  · intro hlen
    refine ⟨?_, ?_, slice_inner condition hlen⟩
    · exact ⟨condition[0], List.getElem?_eq_getElem (by omega)⟩
    · exact ⟨condition[condition.length - 1], List.getElem?_eq_getElem (by omega)⟩
  · intro sep hsep
    obtain ⟨left, right, hsplit, _, _⟩ := SplitN_two condition sep hsep
    exact ⟨right, by rw [hsplit]; rfl⟩

/-- Witness of C20 on the Scenario A script and its cleaned lines. -/
theorem interpreter_total_witness :
    (∃ r, cleanScript scenarioScript = some r) ∧
    (∃ r, getPath slashEnv scenarioLines
      (sampleMeta "Daft Punk" "Discovery" ⟨2001, by decide⟩) = some r) :=
  ⟨(interpreter_total slashEnv scenarioScript "YEAR is number".toList "\tYEAR".toList
      scenarioLines (sampleMeta "Daft Punk" "Discovery" ⟨2001, by decide⟩)).1,
   (interpreter_total slashEnv scenarioScript "YEAR is number".toList "\tYEAR".toList
      scenarioLines (sampleMeta "Daft Punk" "Discovery" ⟨2001, by decide⟩)).2.2.2.1⟩

/-! ## Flat custom tags and enumeration order -/

theorem probe_flat_only (m : Metadata) (hflat : ∀ e ∈ m.Raw, ∃ s, e.2 = RawValue.str s)
    (p : Str) : _extractCustomTag m p = flatValue m p := by
  have hno : ∀ key lang text, (key, RawValue.comm lang p text) ∉ m.Raw := by
    intro key lang text hmem
    obtain ⟨s, hs⟩ := hflat _ hmem
    cases hs
  unfold _extractCustomTag flatValue
  cases hl : m.Raw.lookup p with
  | none => exact scanComm_absent p m.Raw hno
  | some v =>
    cases v with
    | str s => rfl
    | comm lang d text => exact scanComm_absent p m.Raw hno
    | other => exact scanComm_absent p m.Raw hno

theorem extractCustomTag_first (E : Env) (m : Metadata) (name : Str) :
    extractCustomTag E m name =
      (([name, ToUpper E name, ToLower E name].map (_extractCustomTag m)).find?
        (fun v => decide (v ≠ []))).getD [] := by
  unfold extractCustomTag
  by_cases h1 : _extractCustomTag m name = []
  · by_cases h2 : _extractCustomTag m (ToUpper E name) = []
    · by_cases h3 : _extractCustomTag m (ToLower E name) = []
      · simp [h1, h2, h3]
      · simp [h1, h2, h3]
    · simp [h1, h2]
  · simp [h1]

/-- C11: custom tag case probing.  When the free-form collection holds only
flat string entries, `getTag` of `CUSTOM:name` is the first non-empty value among
the flat keys `TrimSpace(name)`, its uppercase and its lowercase form, and empty
when there is none; with the sole flat key `GROUP` holding `Remix`, the tag
`CUSTOM:group` is `Remix`. -/
theorem custom_tag_case_probing (E : Env) (m : Metadata) (name : Str)
    (hflat : ∀ e ∈ m.Raw, ∃ s, e.2 = RawValue.str s) :
    getTag E ("CUSTOM:".toList ++ name) m =
      (([TrimSpace name, ToUpper E (TrimSpace name), ToLower E (TrimSpace name)].map
        (flatValue m)).find? (fun v => decide (v ≠ []))).getD [] ∧
    getTag E "CUSTOM:group".toList (rawMeta [("GROUP".toList, RawValue.str "Remix".toList)]) =
      "Remix".toList := by
  constructor
  · rw [(getTag_prefixed E m name).1, extractCustomTag_first]
    simp only [List.map_cons, List.map_nil, probe_flat_only m hflat]
  · rfl

/-- Witness of C11: the flat keys `mood` and `MOOD` both hold a string, and the
exact name is found first. -/
theorem custom_tag_case_probing_witness :
    getTag slashEnv ("CUSTOM:".toList ++ " mood ".toList)
      (rawMeta [("MOOD".toList, RawValue.str "wild".toList),
        ("mood".toList, RawValue.str "calm".toList)]) = "calm".toList := by
  have h := (custom_tag_case_probing slashEnv
    (rawMeta [("MOOD".toList, RawValue.str "wild".toList),
      ("mood".toList, RawValue.str "calm".toList)]) " mood ".toList
    (by
      intro e he
      simp only [rawMeta, List.mem_cons, List.mem_singleton, List.not_mem_nil, or_false] at he
      rcases he with h | h <;> exact ⟨_, by rw [h]⟩)).1
  rw [h]
  decide

theorem lookup_eq_some_iff (k : Str) (v : RawValue) : ∀ raw : List (Str × RawValue),
    (raw.map Prod.fst).Nodup → (raw.lookup k = some v ↔ (k, v) ∈ raw) := by
  intro raw
  induction raw with
  | nil => intro _; simp
  | cons e rest ih =>
    intro hnd
    obtain ⟨k0, v0⟩ := e
    rw [List.map_cons, List.nodup_cons] at hnd
    obtain ⟨hk0, hrest⟩ := hnd
    by_cases hk : k = k0
    · subst hk
      have hbeq : (k == k) = true := by simp
      rw [List.lookup_cons, hbeq]
      constructor
      · intro h
        simp only [Option.some.injEq] at h
        rw [h]
        exact List.mem_cons_self _ _
      · intro h
        rcases List.mem_cons.1 h with h1 | h1
        · simp only [Prod.mk.injEq, true_and] at h1
          rw [h1]
        · exact absurd (List.mem_map_of_mem Prod.fst h1) hk0
    · have hbeq : (k == k0) = false := by simpa using hk
      rw [List.lookup_cons, hbeq, ih hrest]
      constructor
      · intro h
        exact List.mem_cons_of_mem _ h
      · intro h
        rcases List.mem_cons.1 h with h1 | h1
        · simp only [Prod.mk.injEq] at h1
          exact absurd h1.1 hk
        · exact h1

theorem lookup_perm (k : Str) (raw1 raw2 : List (Str × RawValue)) (hp : raw2.Perm raw1)
    (hnd : (raw1.map Prod.fst).Nodup) : raw2.lookup k = raw1.lookup k := by
  have hnd2 : (raw2.map Prod.fst).Nodup := (hp.map Prod.fst).nodup_iff.2 hnd
  cases h1 : raw1.lookup k with
  | some v =>
    rw [lookup_eq_some_iff k v raw2 hnd2]
    exact hp.mem_iff.2 ((lookup_eq_some_iff k v raw1 hnd).1 h1)
  | none =>
    cases h2 : raw2.lookup k with
    | none => rfl
    | some v =>
      have := (lookup_eq_some_iff k v raw1 hnd).2
        (hp.mem_iff.1 ((lookup_eq_some_iff k v raw2 hnd2).1 h2))
      rw [h1] at this
      cases this

theorem scanComm_mem (p : Str) : ∀ raw : List (Str × RawValue),
    (∃ key lang text, (key, RawValue.comm lang p text) ∈ raw) →
    ∃ key lang, (key, RawValue.comm lang p (scanComm p raw)) ∈ raw := by
  intro raw
  induction raw with
  | nil => rintro ⟨_, _, _, h⟩; simp at h
  | cons e rest ih =>
    rintro ⟨key, lang, text, hmem⟩
    obtain ⟨k0, v0⟩ := e
    have hrec : (∃ key lang text, (key, RawValue.comm lang p text) ∈ rest) →
        ∃ key lang, (key, RawValue.comm lang p (scanComm p rest)) ∈ (k0, v0) :: rest := by
      intro h
      obtain ⟨k1, l1, h1⟩ := ih h
      exact ⟨k1, l1, List.mem_cons_of_mem _ h1⟩
    have htail : (k0, v0) ≠ (key, RawValue.comm lang p text) →
        ∃ key lang text, (key, RawValue.comm lang p text) ∈ rest := by
      intro hne
      rcases List.mem_cons.1 hmem with h | h
      · exact absurd h.symm hne
      · exact ⟨key, lang, text, h⟩
    cases v0 with
    | str s =>
      simp only [scanComm]
      exact hrec (htail (by simp))
    | other =>
      simp only [scanComm]
      exact hrec (htail (by simp))
    | comm lang0 d text0 =>
      simp only [scanComm]
      by_cases hd : d = p
      · subst hd
        rw [if_pos rfl]
        exact ⟨k0, lang0, List.mem_cons_self _ _⟩
      · rw [if_neg hd]
        exact hrec (htail (by
          intro h
          simp only [Prod.mk.injEq, RawValue.comm.injEq] at h
          exact hd h.2.2.1))

theorem scanComm_perm (p : Str) (raw1 raw2 : List (Str × RawValue)) (hp : raw2.Perm raw1)
    (huniq : ∀ key1 lang1 text1 key2 lang2 text2,
      (key1, RawValue.comm lang1 p text1) ∈ raw1 → (key2, RawValue.comm lang2 p text2) ∈ raw1 →
      text1 = text2) :
    scanComm p raw2 = scanComm p raw1 := by
  by_cases hex : ∃ key lang text, (key, RawValue.comm lang p text) ∈ raw1
  · have hex2 : ∃ key lang text, (key, RawValue.comm lang p text) ∈ raw2 := by
      obtain ⟨key, lang, text, h⟩ := hex
      exact ⟨key, lang, text, hp.mem_iff.2 h⟩
    obtain ⟨k1, l1, h1⟩ := scanComm_mem p raw1 hex
    obtain ⟨k2, l2, h2⟩ := scanComm_mem p raw2 hex2
    exact huniq _ _ _ _ _ _ (hp.mem_iff.1 h2) h1
  · have hno1 : ∀ key lang text, (key, RawValue.comm lang p text) ∉ raw1 :=
      fun key lang text h => hex ⟨key, lang, text, h⟩
    have hno2 : ∀ key lang text, (key, RawValue.comm lang p text) ∉ raw2 :=
      fun key lang text h => hex ⟨key, lang, text, hp.mem_iff.1 h⟩
    rw [scanComm_absent p raw1 hno1, scanComm_absent p raw2 hno2]

/-- Two metadata values that differ only in the order of `Raw` resolve every tag
alike, when the keys are distinct and entries with one description have one
text. -/
theorem getTag_perm (E : Env) (m : Metadata) (raw2 : List (Str × RawValue))
    (hp : raw2.Perm m.Raw) (hnd : (m.Raw.map Prod.fst).Nodup)
    (huniq : ∀ p key1 lang1 text1 key2 lang2 text2,
      (key1, RawValue.comm lang1 p text1) ∈ m.Raw → (key2, RawValue.comm lang2 p text2) ∈ m.Raw →
      text1 = text2)
    (tagName : Str) :
    getTag E tagName { m with Raw := raw2 } = getTag E tagName m := by
  have hprobe : ∀ p, _extractCustomTag { m with Raw := raw2 } p = _extractCustomTag m p := by
    intro p
    unfold _extractCustomTag
    rw [show ({ m with Raw := raw2 } : Metadata).Raw = raw2 from rfl,
      lookup_perm p m.Raw raw2 hp hnd, scanComm_perm p m.Raw raw2 hp (huniq p)]
  have hx : ∀ name, extractCustomTag E { m with Raw := raw2 } name = extractCustomTag E m name := by
    intro name
    unfold extractCustomTag
    simp only [hprobe]
  unfold getTag
  simp only [hx]
  rfl

/-- Under the same conditions the result of `getPath` does not depend on the
order in which `Raw` is enumerated. -/
theorem getPath_perm (E : Env) (m : Metadata) (raw2 : List (Str × RawValue))
    (hp : raw2.Perm m.Raw) (hnd : (m.Raw.map Prod.fst).Nodup)
    (huniq : ∀ p key1 lang1 text1 key2 lang2 text2,
      (key1, RawValue.comm lang1 p text1) ∈ m.Raw → (key2, RawValue.comm lang2 p text2) ∈ m.Raw →
      text1 = text2)
    (instructions : List Str) :
    getPath E instructions { m with Raw := raw2 } = getPath E instructions m := by
  have hg := getTag_perm E m raw2 hp hnd huniq
  have hev : ∀ c, evaluateCondition E c { m with Raw := raw2 } = evaluateCondition E c m := by
    intro c
    unfold evaluateCondition
    simp only [hg]
  have hif : ∀ line, ifGrants E { m with Raw := raw2 } line = ifGrants E m line := by
    intro line
    unfold ifGrants
    simp only [hg, hev]
  have hstep : ∀ level cur line,
      getPathStep E { m with Raw := raw2 } level cur line = getPathStep E m level cur line := by
    intro level cur line
    unfold getPathStep
    simp only [hg, hif]
  have hloop : ∀ (l : List Str) (level : Nat) (cur : Str),
      getPathLoop E { m with Raw := raw2 } level cur l = getPathLoop E m level cur l := by
    intro l
    induction l with
    | nil => intro level cur; rfl
    | cons line rest ih =>
      intro level cur
      rw [getPathLoop, getPathLoop, hstep]
      cases getPathStep E m level cur line with
      | none => rfl
      | some fl =>
        cases fl with
        | ret v => rfl
        | next l1 r1 => exact ih l1 r1
  exact hloop instructions 0 []

/-- C13: the result of `getPath` depends on the order in which the free-form
collection is enumerated.  The same two entries (distinct keys, one
description), visited in the two possible orders, give two different paths for
the script `CUSTOM:MOOD`. -/
theorem getPath_enumeration_order :
    (twoDescribed.map Prod.fst).Nodup ∧
    twoDescribed.reverse.Perm twoDescribed ∧
    getPath slashEnv ["CUSTOM:MOOD".toList] (rawMeta twoDescribed) = some "calm".toList ∧
    getPath slashEnv ["CUSTOM:MOOD".toList] (rawMeta twoDescribed.reverse) =
      some "wild".toList := by
  refine ⟨by decide, List.reverse_perm _, by decide, by decide⟩

end Sorter
